import Mathlib

/-!
# OnlineLibrary: the playback track (`internal/player/track.go`)

A shallow embedding of the `track` type of the audio-book player and of its
transport operations `play`, `setSpeed`, `getElapsedTime`, `pause`, `stop`
and `rewind`, followed by theorems about the elapsed-time bookkeeping, the
pause/rewind state machine and the calls issued to the output device.

Modelling conventions.

* An `int64` (a `time.Duration`, a byte offset) is a value of `I64`: an `Int`
  between `-2^63` and `2^63 - 1`.  Sums and products of `I64` wrap around
  modulo `2^64`, as Go's do.
* A `time.Time` is an `Int` number of nanoseconds counted from Go's zero
  `Time`, so `t.IsZero()` is `t = 0`.  `time.Since` saturates at the ends of
  the `int64` range, as `Time.Sub` does.
* A finite `float64` is the rational number it stands for.  `f64` rounds a
  rational to the nearest `float64`, ties to the even mantissa, with 53 bits
  of mantissa and the subnormal grid `2^-1074`; every `float64` operation of
  the source is the exact operation followed by `f64`.  A product too large
  for a `float64` is left as a rational: it is beyond the `int64` range and is
  converted as the infinity is.
* The speed factor is a finite `float64`.  It is named by a rational `q` and
  is the `float64` nearest to `q`, the largest finite one when `q` lies beyond
  it (`speedValue`).  Infinite and NaN speed factors are not modelled.
* The conversion of a `float64` to `int64` truncates towards zero; a value
  outside the `int64` range converts to `-2^63`, which is what the code
  compiled for amd64 does (the Go specification leaves that result to the
  implementation).
* Every body that runs under the track's mutex is one atomic function on the
  track record.  The clock readings (`time.Now`, `time.Since`) a function takes
  are explicit arguments, one for each reading the source makes.
* The decoder, the time-stretch stream and the wave player are external
  libraries.  What they return is an explicit input (the result of a decoder
  seek, the byte counts of successive stream reads); the calls issued to the
  wave player are recorded, oldest first, in the field `wp`.
-/

namespace Player

/-- The smallest `int64` and `time.Duration`, `-2^63`. -/
def minDuration : Int := -9223372036854775808

/-- The largest `int64` and `time.Duration`, `2^63 - 1`. -/
def maxDuration : Int := 9223372036854775807

/-- The `int64` that an integer wraps to: the integer congruent to it modulo
`2^64` between `-2^63` and `2^63 - 1`. -/
def wrap (x : Int) : Int :=
  (x + 9223372036854775808) % 18446744073709551616 - 9223372036854775808

/-- A Go `int64`, the type under `time.Duration`. -/
structure I64 where
  val : Int
  lo : -9223372036854775808 ≤ val
  hi : val ≤ 9223372036854775807

/-- The conversion of an integer to `int64`, wrapping around. -/
def I64.ofInt (x : Int) : I64 :=
  ⟨wrap x, by unfold wrap; omega, by unfold wrap; omega⟩

instance (n : Nat) : OfNat I64 n := ⟨I64.ofInt n⟩

instance : Add I64 := ⟨fun a b => I64.ofInt (a.val + b.val)⟩

instance : Mul I64 := ⟨fun a b => I64.ofInt (a.val * b.val)⟩

instance : LE I64 := ⟨fun a b => a.val ≤ b.val⟩

instance : LT I64 := ⟨fun a b => a.val < b.val⟩

instance (a b : I64) : Decidable (a ≤ b) := inferInstanceAs (Decidable (a.val ≤ b.val))

instance (a b : I64) : Decidable (a < b) := inferInstanceAs (Decidable (a.val < b.val))

instance : Max I64 := ⟨fun a b => if a ≤ b then b else a⟩

instance : DecidableEq I64 := fun a b =>
  if h : a.val = b.val then isTrue (by cases a; cases b; cases h; rfl)
  else isFalse (fun e => h (congrArg I64.val e))

instance : Repr I64 := ⟨fun a _ => repr a.val⟩

/-- The constant `time.Second`. -/
def second : I64 := 1000000000

/-- Rounding of a rational to the nearest integer, a tie to the even one. -/
def roundEven (x : ℚ) : Int :=
  if x - ⌊x⌋ < 1 / 2 then ⌊x⌋
  else if 1 / 2 < x - ⌊x⌋ then ⌊x⌋ + 1
  else if ⌊x⌋ % 2 = 0 then ⌊x⌋ else ⌊x⌋ + 1

/-- The exponent of the last mantissa bit of the `float64` nearest to `x`: 52
below the binary exponent of `x`, and `-1074` in the subnormal range. -/
def ulpExp (x : ℚ) : Int := max (Int.log 2 |x|) (-1022) - 52

/-- The `float64` nearest to a rational, ties to even. -/
def f64 (x : ℚ) : ℚ :=
  if x = 0 then 0 else roundEven (x / 2 ^ ulpExp x) * 2 ^ ulpExp x

/-- The largest finite `float64`, `(2^53 - 1) * 2^971`. -/
def maxFloat : ℚ := 9007199254740991 * 2 ^ 971

/-- The finite `float64` that the rational `q` names as a speed factor. -/
def speedValue (q : ℚ) : ℚ := max (-maxFloat) (min maxFloat (f64 q))

/-- Truncation of a rational towards zero. -/
def trunc (x : ℚ) : Int := if 0 ≤ x then ⌊x⌋ else ⌈x⌉

/-- The conversion `int64(x)` of a `float64`. -/
def toInt64 (x : ℚ) : I64 :=
  if -9223372036854775808 ≤ x ∧ x < 9223372036854775808 then I64.ofInt (trunc x)
  else I64.ofInt minDuration

/-- Go's `time.Since(start)` read when the clock shows `now`: the difference,
saturated to the range of `Duration`. -/
def since (now start : Int) : I64 :=
  I64.ofInt
    (if now - start < minDuration then minDuration
    else if maxDuration < now - start then maxDuration
    else now - start)

/-- The conversion `time.Duration(float64(d) * speed)`: `d` converted to
`float64`, the `float64` product with the speed factor, converted to
`int64`. -/
def scale (d : I64) (speed : ℚ) : I64 :=
  toInt64 (f64 (f64 d.val * speedValue speed))

/-- The `error` value a failed `Decoder.Seek` returns. -/
abbrev Error := String

/-- One call on the wave player `trk.wp`. -/
inductive DevCall where
  | pause (p : Bool)
  | stop
  | write (n : Nat)
  | sync
  | close
deriving DecidableEq, Repr

/-- The mutable fields of `track`.  `speed` names the value that
`trk.stream.Speed()` returns, and `wp` lists the calls made on the wave player
so far. -/
structure Track where
  stopped : Bool
  paused : Bool
  beRewind : Bool
  elapsedTime : I64
  start : Int
  speed : ℚ
  sampleRate : Int
  channels : Int
  wp : List DevCall
deriving DecidableEq

/-- The function `newTrack`: the sample rate and channel count are what the
decoder reports for the first frame, every flag is false, the accumulator and
the anchor are zero values. -/
def newTrack (sampleRate channels : Int) (speed : ℚ) : Track :=
  { stopped := false, paused := false, beRewind := false, elapsedTime := 0, start := 0,
    speed := speed, sampleRate := sampleRate, channels := channels, wp := [] }

namespace Track

/-- The method `setSpeed`.  `now1` is the clock at `time.Since(trk.start)` and
`now2` the clock at the following `time.Now()`. -/
def setSpeed (trk : Track) (speed : ℚ) (now1 now2 : Int) : Track :=
  let trk :=
    if !trk.paused then
      { trk with
        elapsedTime := trk.elapsedTime + scale (since now1 trk.start) trk.speed,
        start := now2 }
    else trk
  { trk with speed := speed }

/-- The method `getElapsedTime`, read when the clock shows `now`. -/
def getElapsedTime (trk : Track) (now : Int) : I64 :=
  if trk.paused then trk.elapsedTime
  else trk.elapsedTime + scale (since now trk.start) trk.speed

/-- The method `pause`: the new track and the returned flag.  `now` is the one
clock reading the call makes (`time.Since` when pausing, `time.Now` when
resuming). -/
def pause (trk : Track) (pause : Bool) (now : Int) : Track × Bool :=
  if trk.paused = pause then (trk, false)
  else
    let trk := { trk with paused := pause }
    let trk :=
      if trk.paused then
        if trk.start ≠ 0 then
          { trk with elapsedTime := trk.elapsedTime + scale (since now trk.start) trk.speed }
        else trk
      else { trk with start := now }
    if trk.beRewind then
      ({ trk with beRewind := false, wp := trk.wp ++ [DevCall.stop] }, true)
    else
      ({ trk with wp := trk.wp ++ [DevCall.pause trk.paused] }, true)

/-- The method `stop`. -/
def stop (trk : Track) : Track :=
  { trk with stopped := true, wp := trk.wp ++ [DevCall.stop] }

/-- The method `Duration.Seconds`: the whole seconds and the remaining
nanoseconds of `d` (integer division truncated towards zero), each converted
to `float64`, the latter divided by `1e9`, then added. -/
def seconds (d : I64) : ℚ :=
  f64 (f64 (Int.tdiv d.val 1000000000) + f64 (f64 (Int.tmod d.val 1000000000) / 1000000000))

/-- The byte offset `int64(float64(sampleRate*channels*2) * d.Seconds())` that
`rewind` hands to the decoder; the product of the three `int` values wraps
around. -/
def offsetInBytes (trk : Track) (d : I64) : I64 :=
  toInt64 (f64 (f64 (wrap (trk.sampleRate * trk.channels * 2)) * seconds d))

/-- The loop of `rewind` that reads the stream until a read returns 0.  The
list holds the byte counts of the successive reads; the result tells whether
a read returned 0, that is, whether the loop was left. -/
def drainStream : List Nat → Bool
  | [] => false
  | n :: rest => if n = 0 then true else drainStream rest

/-- The part of `rewind` that runs under the mutex, from the computation of the
target to the return.  `seek` gives the error of `trk.dec.Seek` for a byte
offset (`none` for a nil error) and `reads` the results of the stream reads.
The result is `none` when the reads never return 0. -/
def rewindLocked (trk : Track) (offset : I64) (seek : I64 → Option Error)
    (reads : List Nat) : Option (Track × Option Error) :=
  let elapsedTime := trk.elapsedTime + offset
  let elapsedTime := if elapsedTime < 0 then 0 else elapsedTime
  match seek (trk.offsetInBytes elapsedTime) with
  | some err => some (trk, some err)
  | none =>
    if drainStream reads then
      some ({ trk with elapsedTime := elapsedTime, beRewind := true }, none)
    else none

/-- The method `rewind`: the new track and the returned error.  `now1` is the
clock in the opening `trk.pause(true)`, `now2` the clock in the deferred
`trk.pause(false)`, which runs after the mutex is released and only when the
opening call returned true. -/
def rewind (trk : Track) (offset : I64) (seek : I64 → Option Error)
    (reads : List Nat) (now1 now2 : Int) : Option (Track × Option Error) :=
  let p := trk.pause true now1
  match rewindLocked p.1 offset seek reads with
  | none => none
  | some (trk1, err) =>
    if p.2 then some ((trk1.pause false now2).1, err) else some (trk1, err)

/-- The first statement of `play`: `trk.start = time.Now()`. -/
def anchor (trk : Track) (now : Int) : Track :=
  { trk with start := now }

end Track

/-- The error of a `Decoder.Read`: the end of the stream or a decoding
failure. -/
inductive ReadErr where
  | eof
  | decode
deriving DecidableEq, Repr

/-- One action of the pipeline task.  `decClose` stands for closing the
decoder; `play` has no statement that performs it. -/
inductive Action where
  | decRead (n : Nat) (err : Option ReadErr)
  | streamWrite (n : Nat)
  | streamFlush
  | streamRead (n : Nat)
  | wp (c : DevCall)
  | streamClose
  | decClose
deriving DecidableEq, Repr

/-- What the pipeline meets in one pass of its inner loop: whether `stop` ran
on the control task before the mutex was taken, and the byte count of the
stream read. -/
structure InnerStep where
  stopReq : Bool
  n : Nat
deriving DecidableEq, Repr

/-- What the pipeline meets in one pass of its outer loop: whether `stop` ran
before the mutex was taken, the result of the decoder read, and the passes of
the inner loop. -/
structure Round where
  stopReq : Bool
  n : Nat
  err : Option ReadErr
  inner : List InnerStep
deriving DecidableEq, Repr

/-- The statements after the loops of `play`: `wp.Sync`, `wp.Close`,
`stream.Close`. -/
def finish (trk : Track) (tr : List Action) : Track × List Action :=
  ({ trk with wp := trk.wp ++ [DevCall.sync, DevCall.close] },
    tr ++ [Action.wp DevCall.sync, Action.wp DevCall.close, Action.streamClose])

/-- The inner loop of `play`.  The result is `none` when the steps run out
while the loop is still going. -/
def innerLoop (trk : Track) (steps : List InnerStep) (tr : List Action) :
    Option (Track × List Action) :=
  match steps with
  | [] => none
  | s :: rest =>
    let trk := if s.stopReq then trk.stop else trk
    if trk.stopped then some (trk, tr)
    else if s.n = 0 then some (trk, tr ++ [Action.streamRead 0])
    else
      innerLoop { trk with wp := trk.wp ++ [DevCall.write s.n] } rest
        (tr ++ [Action.streamRead s.n, Action.wp (DevCall.write s.n)])

/-- The outer loop of `play` with the statements that follow it.  The result
is `none` when the rounds run out while the loop is still going. -/
def playLoop (trk : Track) (script : List Round) (tr : List Action) :
    Option (Track × List Action) :=
  match script with
  | [] => if trk.stopped then some (finish trk tr) else none
  | r :: rest =>
    let trk := if r.stopReq then trk.stop else trk
    if trk.stopped then some (finish trk tr)
    else
      let tr := tr ++ [Action.decRead r.n r.err, Action.streamWrite r.n] ++
        (if r.err.isSome then [Action.streamFlush] else [])
      match innerLoop trk r.inner tr with
      | none => none
      | some (trk, tr) =>
        if r.err.isSome then some (finish trk tr) else playLoop trk rest tr

/-- The actions of the loops of `play`: decoder reads, stream writes, flushes
and reads, and writes to the wave player. -/
def Action.isTransfer : Action → Bool
  | Action.decRead _ _ => true
  | Action.streamWrite _ => true
  | Action.streamFlush => true
  | Action.streamRead _ => true
  | Action.wp (DevCall.write _) => true
  | _ => false

/-- Some pass of the inner loop leaves it: `stop` has run or the stream read
returns 0. -/
def innerEnds (steps : List InnerStep) : Bool :=
  steps.any (fun s => s.stopReq || s.n == 0)

/-- The method `play`, the pipeline task: the final track and the actions of
the task in order. -/
def Track.play (trk : Track) (now : Int) (script : List Round) :
    Option (Track × List Action) :=
  playLoop (trk.anchor now) script []

/-- A transport call other than `rewind` and `stop`, together with the clock
readings it makes. -/
inductive Op where
  | pause (p : Bool) (now : Int)
  | setSpeed (f : ℚ) (now1 now2 : Int)

/-- The track after one transport call. -/
def Op.apply (trk : Track) : Op → Track
  | Op.pause p now => (trk.pause p now).1
  | Op.setSpeed f now1 now2 => trk.setSpeed f now1 now2

/-- The track after a sequence of transport calls. -/
def run (trk : Track) (ops : List Op) : Track :=
  ops.foldl Op.apply trk

/-- The speed factor a call installs, if any, is positive. -/
def Op.speedPos : Op → Prop
  | Op.pause _ _ => True
  | Op.setSpeed f _ _ => 0 < f

/-- The clock readings of the calls are non-decreasing, start no earlier than
`t` and end no later than `t2`. -/
def timed (t : Int) : List Op → Int → Prop
  | [], t2 => t ≤ t2
  | Op.pause _ now :: rest, t2 => t ≤ now ∧ timed now rest t2
  | Op.setSpeed _ now1 now2 :: rest, t2 => t ≤ now1 ∧ now1 ≤ now2 ∧ timed now2 rest t2

/-- Reading the track at `now` overflows nothing: the track is Paused, or the
`float64` product of the interval since the anchor and the speed factor is
below `2^63` and its sum with the accumulator is at most the largest
`Duration`. -/
def Track.fits (trk : Track) (now : Int) : Prop :=
  trk.paused = true ∨
    (f64 (f64 (since now trk.start).val * speedValue trk.speed) < 9223372036854775808 ∧
      trk.elapsedTime.val + (scale (since now trk.start) trk.speed).val ≤ maxDuration)

/-- No reading overflows along a sequence of calls: not when a call reads the
clock to fold the interval, and not at the final clock `t2`. -/
def noOverflow (trk : Track) : List Op → Int → Prop
  | [], t2 => trk.fits t2
  | Op.pause p now :: rest, t2 =>
    trk.fits now ∧ noOverflow (Op.apply trk (Op.pause p now)) rest t2
  | Op.setSpeed f now1 now2 :: rest, t2 =>
    trk.fits now1 ∧ noOverflow (Op.apply trk (Op.setSpeed f now1 now2)) rest t2

end Player

/-!
# OnlineLibrary: the recent-books list (`internal/config/config.go`)

The structs `Book`, `Credentials` and `Service` and the methods `UpdateBook`,
`SetCurrentBook`, `Book` and `CurrentBook` of `Service`.  A slice is a list, a
Go `int` and a `time.Duration` are `Int`, and a method with a pointer receiver
returns the service it leaves behind.
-/

namespace Config

/-- The `error` value of package `errors`, by its message. -/
abbrev Error := String

/-- The struct `Book`. -/
structure Book where
  Name : String
  ID : String
  Fragment : Int
  ElapsedTime : Int
deriving DecidableEq, Repr

/-- The struct `Credentials`. -/
structure Credentials where
  Username : String
  Password : String
deriving DecidableEq, Repr

/-- The struct `Service`. -/
structure Service where
  Name : String
  URL : String
  Credentials : Credentials
  RecentBooks : List Book
deriving DecidableEq, Repr

/-- The statement `copy(s[1:i+1], s[0:i])` on a slice with more than `i`
elements: the first `i` elements move one place to the right, the element at
index 0 and the elements after index `i` stay. -/
def shiftRight (books : List Book) (i : Nat) : List Book :=
  books.take 1 ++ books.take i ++ books.drop (i + 1)

/-- The loop of `SetCurrentBook` from index `i` on; the last argument holds the
elements the `range` has still to visit. -/
def setCurrentLoop (id : String) (books : List Book) : Nat → List Book → List Book
  | _, [] => books
  | i, b :: rest =>
    if b.ID = id then (shiftRight books i).set 0 b
    else setCurrentLoop id books (i + 1) rest

/-- The method `SetCurrentBook`. -/
def Service.SetCurrentBook (s : Service) (id : String) : Service :=
  { s with RecentBooks := setCurrentLoop id s.RecentBooks 0 s.RecentBooks }

/-- The loop of `UpdateBook`: `k` passes are left and the next index is `i`.
Every pass reads `s.RecentBooks[i]` from the list as it is then. -/
def updateLoop (id name : String) (fragment : Int) (elapsedTime : Int) :
    Nat → Nat → Service → Service
  | 0, _, s => s
  | k + 1, i, s =>
    match s.RecentBooks[i]? with
    | none => s
    | some b =>
      if b.ID = id then
        let s1 : Service :=
          { s with
            RecentBooks := s.RecentBooks.set i
              { b with Name := name, Fragment := fragment, ElapsedTime := elapsedTime } }
        updateLoop id name fragment elapsedTime k (i + 1) (s1.SetCurrentBook id)
      else updateLoop id name fragment elapsedTime k (i + 1) s

/-- The method `UpdateBook`; the `range` fixes the number of passes at the
length the list has when the loop starts. -/
def Service.UpdateBook (s : Service) (id name : String) (fragment : Int)
    (elapsedTime : Int) : Service :=
  updateLoop id name fragment elapsedTime s.RecentBooks.length 0 s

/-- The loop of the method `Book`. -/
def bookLoop (id : String) : List Book → Book × Option Error
  | [] => ({ Name := "", ID := "", Fragment := 0, ElapsedTime := 0 }, some "book not found")
  | b :: rest => if b.ID = id then (b, none) else bookLoop id rest

/-- The method `Book`: the book and the error (`none` for nil). -/
def Service.Book (s : Service) (id : String) : Config.Book × Option Error :=
  bookLoop id s.RecentBooks

/-- The method `CurrentBook`. -/
def Service.CurrentBook (s : Service) : String :=
  match s.RecentBooks with
  | [] => ""
  | b :: _ => b.ID

end Config

namespace Player

/-! ## Arithmetic of `int64` and `float64` -/

theorem wrap_of_range {x : Int} (h1 : -9223372036854775808 ≤ x)
    (h2 : x ≤ 9223372036854775807) : wrap x = x := by
  unfold wrap
  omega

theorem I64.ext {a b : I64} (h : a.val = b.val) : a = b := by
  cases a; cases b; cases h; rfl

theorem I64.val_ofInt {x : Int} (h1 : -9223372036854775808 ≤ x)
    (h2 : x ≤ 9223372036854775807) : (I64.ofInt x).val = x :=
  wrap_of_range h1 h2

theorem I64.add_val (a b : I64) : (a + b).val = wrap (a.val + b.val) := rfl

theorem I64.zero_val : (0 : I64).val = 0 := rfl

theorem I64.add_zero (a : I64) : a + 0 = a := by
  apply I64.ext
  rw [I64.add_val, I64.zero_val, Int.add_zero]
  exact wrap_of_range a.lo a.hi

theorem I64.zero_add (a : I64) : 0 + a = a := by
  apply I64.ext
  rw [I64.add_val, I64.zero_val, Int.zero_add]
  exact wrap_of_range a.lo a.hi

theorem I64.max_val (a b : I64) : (max a b).val = max a.val b.val := by
  show (if a.val ≤ b.val then b else a).val = max a.val b.val
  split_ifs with h
  · rw [max_eq_right h]
  · rw [max_eq_left (by omega)]

theorem roundEven_le (x : ℚ) : (roundEven x : ℚ) ≤ x + 1 / 2 := by
  have h1 := Int.floor_le x
  have h2 := Int.lt_floor_add_one x
  unfold roundEven
  split_ifs <;> push_cast <;> linarith

theorem roundEven_ge (x : ℚ) : x - 1 / 2 ≤ (roundEven x : ℚ) := by
  have h1 := Int.floor_le x
  have h2 := Int.lt_floor_add_one x
  unfold roundEven
  split_ifs <;> push_cast <;> linarith

theorem roundEven_intCast (n : Int) : roundEven (n : ℚ) = n := by
  unfold roundEven
  rw [Int.floor_intCast]
  norm_num

theorem roundEven_mono {x y : ℚ} (h : x ≤ y) : roundEven x ≤ roundEven y := by
  by_contra hlt
  have hlt : roundEven y + 1 ≤ roundEven x := by omega
  have hq : ((roundEven y : Int) : ℚ) + 1 ≤ (roundEven x : ℚ) := by exact_mod_cast hlt
  have hx := roundEven_le x
  have hy := roundEven_ge y
  have hxy : x = y := by linarith
  rw [hxy] at hlt
  omega

theorem two_zpow_pos (e : Int) : (0 : ℚ) < 2 ^ e := zpow_pos (by norm_num) e

theorem f64_zero : f64 0 = 0 := by simp [f64]

theorem f64_nonneg {x : ℚ} (h : 0 ≤ x) : 0 ≤ f64 x := by
  unfold f64
  split_ifs with h0
  · exact le_refl _
  · apply mul_nonneg _ (two_zpow_pos _).le
    have h1 : roundEven 0 ≤ roundEven (x / 2 ^ ulpExp x) :=
      roundEven_mono (div_nonneg h (two_zpow_pos _).le)
    have h2 := roundEven_intCast 0
    simp only [Int.cast_zero] at h2
    rw [h2] at h1
    exact_mod_cast h1

theorem log_le_self {x : ℚ} (h : 0 < x) : (2 : ℚ) ^ Int.log 2 x ≤ x := by
  have := Int.zpow_log_le_self (b := 2) (by norm_num) h
  simpa using this

theorem lt_log_succ (x : ℚ) : x < (2 : ℚ) ^ (Int.log 2 x + 1) := by
  have := Int.lt_zpow_succ_log_self (b := 2) (by norm_num) x
  simpa using this

theorem f64_mono {x y : ℚ} (hx : 0 ≤ x) (h : x ≤ y) : f64 x ≤ f64 y := by
  rcases eq_or_lt_of_le hx with h0 | hpos
  · rw [← h0, f64_zero]
    exact f64_nonneg (le_trans hx h)
  have hypos : 0 < y := lt_of_lt_of_le hpos h
  have hlog : Int.log 2 x ≤ Int.log 2 y := Int.log_mono_right hpos h
  have hex : ulpExp x = max (Int.log 2 x) (-1022) - 52 := by
    unfold ulpExp; rw [abs_of_pos hpos]
  have hey : ulpExp y = max (Int.log 2 y) (-1022) - 52 := by
    unfold ulpExp; rw [abs_of_pos hypos]
  have hfx : f64 x = roundEven (x / 2 ^ ulpExp x) * 2 ^ ulpExp x := by
    unfold f64; rw [if_neg hpos.ne']
  have hfy : f64 y = roundEven (y / 2 ^ ulpExp y) * 2 ^ ulpExp y := by
    unfold f64; rw [if_neg hypos.ne']
  rw [hfx, hfy]
  rcases eq_or_lt_of_le (show ulpExp x ≤ ulpExp y by rw [hex, hey]; omega) with he | he
  · rw [← he]
    apply mul_le_mul_of_nonneg_right _ (two_zpow_pos _).le
    have := roundEven_mono (div_le_div_of_nonneg_right h (two_zpow_pos (ulpExp x)).le)
    exact_mod_cast this
  · -- different binades: a power of two lies between the two results
    have hup : (roundEven (x / 2 ^ ulpExp x) : ℚ) * 2 ^ ulpExp x ≤ 2 ^ (ulpExp x + 53) := by
      have h1 : x < 2 ^ (ulpExp x + 53) := by
        refine lt_of_lt_of_le (lt_log_succ x) ?_
        apply zpow_le_zpow_right₀ (by norm_num)
        rw [hex]; omega
      have h2 : x / 2 ^ ulpExp x ≤ ((9007199254740992 : Int) : ℚ) := by
        rw [div_le_iff₀ (two_zpow_pos _)]
        rw [zpow_add₀ (by norm_num : (2 : ℚ) ≠ 0)] at h1
        have : (2 : ℚ) ^ (53 : Int) = 9007199254740992 := by norm_num
        rw [this] at h1
        push_cast
        linarith
      have h3 := roundEven_mono h2
      rw [roundEven_intCast] at h3
      have h4 : (roundEven (x / 2 ^ ulpExp x) : ℚ) ≤ 9007199254740992 := by exact_mod_cast h3
      rw [zpow_add₀ (by norm_num : (2 : ℚ) ≠ 0)]
      have : (2 : ℚ) ^ (53 : Int) = 9007199254740992 := by norm_num
      rw [this, mul_comm ((2 : ℚ) ^ ulpExp x)]
      exact mul_le_mul_of_nonneg_right h4 (two_zpow_pos _).le
    have hky : ulpExp y = Int.log 2 y - 52 := by
      rw [hex, hey] at he
      rw [hey]
      omega
    have hlow : (2 : ℚ) ^ (ulpExp y + 52) ≤
        (roundEven (y / 2 ^ ulpExp y) : ℚ) * 2 ^ ulpExp y := by
      have h1 : (2 : ℚ) ^ (ulpExp y + 52) ≤ y := by
        have := log_le_self hypos
        rw [hky]
        simpa using this
      have h2 : ((4503599627370496 : Int) : ℚ) ≤ y / 2 ^ ulpExp y := by
        rw [le_div_iff₀ (two_zpow_pos _)]
        rw [zpow_add₀ (by norm_num : (2 : ℚ) ≠ 0)] at h1
        have : (2 : ℚ) ^ (52 : Int) = 4503599627370496 := by norm_num
        rw [this] at h1
        push_cast
        linarith
      have h3 := roundEven_mono h2
      rw [roundEven_intCast] at h3
      have h4 : (4503599627370496 : ℚ) ≤ (roundEven (y / 2 ^ ulpExp y) : ℚ) := by
        exact_mod_cast h3
      rw [zpow_add₀ (by norm_num : (2 : ℚ) ≠ 0)]
      have : (2 : ℚ) ^ (52 : Int) = 4503599627370496 := by norm_num
      rw [this, mul_comm ((2 : ℚ) ^ ulpExp y)]
      exact mul_le_mul_of_nonneg_right h4 (two_zpow_pos _).le
    refine le_trans hup (le_trans ?_ hlow)
    apply zpow_le_zpow_right₀ (by norm_num)
    omega

theorem f64_exact (m j : Int) (hm : |m| < 9007199254740992) (hj : -1074 ≤ j) :
    f64 ((m : ℚ) * 2 ^ j) = (m : ℚ) * 2 ^ j := by
  by_cases hm0 : m = 0
  · rw [hm0]; simp [f64_zero]
  have hmq : (m : ℚ) ≠ 0 := by exact_mod_cast hm0
  have hx0 : (m : ℚ) * 2 ^ j ≠ 0 := mul_ne_zero hmq (two_zpow_pos j).ne'
  have habs : |(m : ℚ) * 2 ^ j| = |(m : ℚ)| * 2 ^ j := by
    rw [abs_mul, abs_of_pos (two_zpow_pos j)]
  have hapos : 0 < |(m : ℚ) * 2 ^ j| := abs_pos.mpr hx0
  have hle : ulpExp ((m : ℚ) * 2 ^ j) ≤ j := by
    unfold ulpExp
    have h1 := log_le_self hapos
    have h2 : |(m : ℚ) * 2 ^ j| < 2 ^ (53 + j) := by
      rw [habs, zpow_add₀ (by norm_num : (2 : ℚ) ≠ 0)]
      have hc : |(m : ℚ)| < 9007199254740992 := by exact_mod_cast hm
      have : (2 : ℚ) ^ (53 : Int) = 9007199254740992 := by norm_num
      rw [this]
      exact mul_lt_mul_of_pos_right hc (two_zpow_pos j)
    have h3 : Int.log 2 |(m : ℚ) * 2 ^ j| < 53 + j :=
      (zpow_lt_zpow_iff_right₀ (by norm_num : (1 : ℚ) < 2)).mp (lt_of_le_of_lt h1 h2)
    omega
  unfold f64
  rw [if_neg hx0]
  generalize ulpExp ((m : ℚ) * 2 ^ j) = e at hle
  obtain ⟨n, hn⟩ : ∃ n : Nat, j = e + n := ⟨(j - e).toNat, by omega⟩
  have hdiv : (m : ℚ) * 2 ^ j / 2 ^ e = ((m * 2 ^ n : Int) : ℚ) := by
    rw [hn, zpow_add₀ (by norm_num : (2 : ℚ) ≠ 0), zpow_natCast]
    push_cast
    field_simp
    ring
  rw [hdiv, roundEven_intCast, hn, zpow_add₀ (by norm_num : (2 : ℚ) ≠ 0), zpow_natCast]
  push_cast
  ring

theorem f64_intCast (n : Int) (h : |n| < 9007199254740992) : f64 (n : ℚ) = n := by
  have := f64_exact n 0 h (by decide)
  simpa using this

theorem f64_of_grid (x : ℚ) (k : Int) (hx : 0 < x) (h1 : (2 : ℚ) ^ k ≤ x)
    (h2 : x < 2 ^ (k + 1)) :
    f64 x = roundEven (x / 2 ^ (max k (-1022) - 52)) * 2 ^ (max k (-1022) - 52) := by
  have hk : Int.log 2 x = k := by
    have ha : k ≤ Int.log 2 x :=
      (Int.zpow_le_iff_le_log (b := 2) (by norm_num) hx).mp (by simpa using h1)
    have hb : Int.log 2 x < k + 1 :=
      (Int.lt_zpow_iff_log_lt (b := 2) (by norm_num) hx).mp (by simpa using h2)
    omega
  unfold f64 ulpExp
  rw [if_neg hx.ne', abs_of_pos hx, hk]

theorem speedValue_nonneg {s : ℚ} (h : 0 ≤ s) : 0 ≤ speedValue s := by
  unfold speedValue
  have hm : (0 : ℚ) ≤ maxFloat := by unfold maxFloat; positivity
  exact le_max_of_le_right (le_min hm (f64_nonneg h))

theorem speedValue_exact {s : ℚ} (h : f64 s = s) (h1 : -maxFloat ≤ s) (h2 : s ≤ maxFloat) :
    speedValue s = s := by
  unfold speedValue
  rw [h, min_eq_right h2, max_eq_right h1]

theorem speedValue_intCast (n : Int) (h : |n| < 9007199254740992) :
    speedValue (n : ℚ) = n := by
  have habs : |(n : ℚ)| < 9007199254740992 := by exact_mod_cast h
  have hm : (9007199254740992 : ℚ) ≤ maxFloat := by
    unfold maxFloat
    norm_num
  rw [abs_lt] at habs
  exact speedValue_exact (f64_intCast n h) (by linarith) (by linarith)

theorem trunc_intCast (n : Int) : trunc (n : ℚ) = n := by
  unfold trunc
  split_ifs <;> simp

theorem trunc_nonneg {x : ℚ} (h : 0 ≤ x) : 0 ≤ trunc x := by
  unfold trunc
  rw [if_pos h]
  exact Int.floor_nonneg.mpr h

theorem trunc_mono {x y : ℚ} (hx : 0 ≤ x) (h : x ≤ y) : trunc x ≤ trunc y := by
  unfold trunc
  rw [if_pos hx, if_pos (le_trans hx h)]
  exact Int.floor_le_floor h

theorem trunc_lt {x : ℚ} (hx : 0 ≤ x) (h : x < 9223372036854775808) :
    trunc x ≤ 9223372036854775807 := by
  unfold trunc
  rw [if_pos hx]
  have : ⌊x⌋ < 9223372036854775808 := Int.floor_lt.mpr (by exact_mod_cast h)
  omega

theorem toInt64_val_nonneg {x : ℚ} (hx : 0 ≤ x) (h : x < 9223372036854775808) :
    (toInt64 x).val = trunc x := by
  unfold toInt64
  rw [if_pos ⟨by linarith, h⟩]
  have h1 := trunc_nonneg hx
  exact I64.val_ofInt (by omega) (trunc_lt hx h)

theorem toInt64_intCast (z : Int) (h1 : -9223372036854775808 ≤ z)
    (h2 : z ≤ 9223372036854775807) : toInt64 (z : ℚ) = I64.ofInt z := by
  unfold toInt64
  rw [if_pos ⟨by exact_mod_cast h1, by
    have : z < 9223372036854775808 := by omega
    exact_mod_cast this⟩, trunc_intCast]

theorem scale_zero (s : ℚ) : scale 0 s = 0 := by
  unfold scale
  rw [I64.zero_val]
  simp only [Int.cast_zero, f64_zero, zero_mul]
  have := toInt64_intCast 0 (by decide) (by decide)
  simpa using this

theorem scale_exact (d : I64) (s : ℚ) (z : Int) (hd : |d.val| < 9007199254740992)
    (hs : speedValue s = s) (hz : (d.val : ℚ) * s = z) (hz53 : |z| < 9007199254740992) :
    scale d s = I64.ofInt z := by
  unfold scale
  rw [f64_intCast d.val hd, hs, hz, f64_intCast z hz53]
  rw [abs_lt] at hz53
  exact toInt64_intCast z (by omega) (by omega)

theorem scale_intCast (d : I64) (n : Int) (hd : |d.val| < 9007199254740992)
    (hn : |n| < 9007199254740992) (hz53 : |d.val * n| < 9007199254740992) :
    scale d (n : ℚ) = I64.ofInt (d.val * n) :=
  scale_exact d n (d.val * n) hd (speedValue_intCast n hn) (by push_cast; ring) hz53

/-- The float64 product that `scale` converts. -/
theorem scale_val_of_fit (d : I64) (s : ℚ) (hd : 0 ≤ d.val) (hs : 0 ≤ s)
    (hfit : f64 (f64 d.val * speedValue s) < 9223372036854775808) :
    (scale d s).val = trunc (f64 (f64 d.val * speedValue s)) := by
  unfold scale
  apply toInt64_val_nonneg _ hfit
  exact f64_nonneg (mul_nonneg (f64_nonneg (by exact_mod_cast hd)) (speedValue_nonneg hs))

theorem scale_mono_of_fit (a b : I64) (s : ℚ) (ha : 0 ≤ a.val) (hab : a.val ≤ b.val)
    (hs : 0 ≤ s) (hfit : f64 (f64 b.val * speedValue s) < 9223372036854775808) :
    0 ≤ (scale a s).val ∧ (scale a s).val ≤ (scale b s).val ∧
      f64 (f64 a.val * speedValue s) < 9223372036854775808 := by
  have haq : (0 : ℚ) ≤ (a.val : ℚ) := by exact_mod_cast ha
  have habq : (a.val : ℚ) ≤ (b.val : ℚ) := by exact_mod_cast hab
  have hsv := speedValue_nonneg hs
  have h1 : f64 a.val ≤ f64 b.val := f64_mono haq habq
  have h0 : 0 ≤ f64 (a.val : ℚ) := f64_nonneg haq
  have h2 : f64 (f64 a.val * speedValue s) ≤ f64 (f64 b.val * speedValue s) :=
    f64_mono (mul_nonneg h0 hsv) (mul_le_mul_of_nonneg_right h1 hsv)
  have hfa : f64 (f64 a.val * speedValue s) < 9223372036854775808 := lt_of_le_of_lt h2 hfit
  have hpa : 0 ≤ f64 (f64 a.val * speedValue s) := f64_nonneg (mul_nonneg h0 hsv)
  rw [scale_val_of_fit a s ha hs hfa, scale_val_of_fit b s (le_trans ha hab) hs hfit]
  exact ⟨trunc_nonneg hpa, trunc_mono hpa h2, hfa⟩

theorem f64_maxDuration : f64 9223372036854775807 = 9223372036854775808 := by
  rw [f64_of_grid 9223372036854775807 62 (by norm_num) (by norm_num) (by norm_num)]
  have he : max (62 : Int) (-1022) - 52 = 10 := by decide
  rw [he]
  have hr : roundEven ((9223372036854775807 : ℚ) / 2 ^ (10 : Int)) = 9007199254740992 := by
    have hfl : ⌊(9223372036854775807 : ℚ) / 2 ^ (10 : Int)⌋ = 9007199254740991 := by
      rw [Int.floor_eq_iff]
      constructor <;> norm_num
    unfold roundEven
    rw [hfl]
    norm_num
  rw [hr]
  norm_num

theorem f64_tie : f64 9007199254740993 = 9007199254740992 := by
  rw [f64_of_grid 9007199254740993 53 (by norm_num) (by norm_num) (by norm_num)]
  have he : max (53 : Int) (-1022) - 52 = 1 := by decide
  rw [he]
  have hr : roundEven ((9007199254740993 : ℚ) / 2 ^ (1 : Int)) = 4503599627370496 := by
    have hfl : ⌊(9007199254740993 : ℚ) / 2 ^ (1 : Int)⌋ = 4503599627370496 := by
      rw [Int.floor_eq_iff]
      constructor <;> norm_num
    unfold roundEven
    rw [hfl]
    norm_num
  rw [hr]
  norm_num

theorem since_val (now start : Int) :
    (since now start).val = max minDuration (min maxDuration (now - start)) := by
  unfold since
  rw [I64.val_ofInt (by unfold minDuration maxDuration; split_ifs <;> omega)
    (by unfold minDuration maxDuration; split_ifs <;> omega)]
  unfold minDuration maxDuration
  split_ifs <;> omega

theorem since_self (t : Int) : since t t = 0 := by
  apply I64.ext
  rw [since_val, I64.zero_val]
  unfold minDuration maxDuration
  omega

theorem since_add (t d : Int) (h1 : minDuration ≤ d) (h2 : d ≤ maxDuration) :
    since (t + d) t = I64.ofInt d := by
  unfold minDuration at h1
  unfold maxDuration at h2
  apply I64.ext
  rw [since_val, I64.val_ofInt h1 h2]
  unfold minDuration maxDuration
  omega

theorem since_mono (start : Int) {a b : Int} (h : a ≤ b) :
    (since a start).val ≤ (since b start).val := by
  rw [since_val, since_val]
  unfold minDuration maxDuration
  omega

theorem since_nonneg {now start : Int} (h : start ≤ now) : 0 ≤ (since now start).val := by
  rw [since_val]
  unfold minDuration maxDuration
  omega

theorem scale_ofNat (d : I64) (n : Nat) (hd : |d.val| < 9007199254740992)
    (hn : |(n : Int)| < 9007199254740992) (hz53 : |d.val * n| < 9007199254740992) :
    scale d (n : ℚ) = I64.ofInt (d.val * n) := by
  have := scale_intCast d n hd hn hz53
  simpa using this

/-! ## Unfolding lemmas for the transport operations -/

theorem pause_same (trk : Track) (p : Bool) (now : Int) (h : trk.paused = p) :
    trk.pause p now = (trk, false) := by
  simp [Track.pause, h]

theorem pause_true_of_playing (trk : Track) (now : Int) (h : trk.paused = false) :
    trk.pause true now =
      ({ trk with
          paused := true,
          elapsedTime := if trk.start ≠ 0 then
              trk.elapsedTime + scale (since now trk.start) trk.speed
            else trk.elapsedTime,
          beRewind := false,
          wp := trk.wp ++ [if trk.beRewind then DevCall.stop else DevCall.pause true] },
        true) := by
  unfold Track.pause
  by_cases h0 : trk.start = 0 <;> cases hb : trk.beRewind <;> simp [h, h0, hb]

theorem pause_false_of_paused (trk : Track) (now : Int) (h : trk.paused = true) :
    trk.pause false now =
      ({ trk with
          paused := false,
          start := now,
          beRewind := false,
          wp := trk.wp ++ [if trk.beRewind then DevCall.stop else DevCall.pause false] },
        true) := by
  unfold Track.pause
  cases hb : trk.beRewind <;> simp [h, hb]

theorem pause_paused (trk : Track) (p : Bool) (now : Int) : (trk.pause p now).1.paused = p := by
  cases hp : trk.paused <;> cases p
  · rw [pause_same trk false now hp]; exact hp
  · rw [pause_true_of_playing trk now hp]
  · rw [pause_false_of_paused trk now hp]
  · rw [pause_same trk true now hp]; exact hp

theorem pause_elapsed (trk : Track) (p : Bool) (t : Int)
    (h : trk.paused = true ∨ trk.start ≠ 0) :
    (trk.pause p t).1.getElapsedTime t = trk.getElapsedTime t := by
  cases hp : trk.paused <;> cases p
  · rw [pause_same trk false t hp]
  · have h0 : trk.start ≠ 0 := by
      rcases h with h | h
      · rw [hp] at h; cases h
      · exact h
    rw [pause_true_of_playing trk t hp]
    simp [Track.getElapsedTime, hp, h0]
  · rw [pause_false_of_paused trk t hp]
    simp [Track.getElapsedTime, hp, since_self, scale_zero, I64.add_zero]
  · rw [pause_same trk true t hp]

theorem setSpeed_elapsed (trk : Track) (f : ℚ) (t : Int) :
    (trk.setSpeed f t t).getElapsedTime t = trk.getElapsedTime t := by
  cases hp : trk.paused <;>
    simp [Track.setSpeed, Track.getElapsedTime, hp, since_self, scale_zero, I64.add_zero]


theorem scale_eval (d : I64) (s a b c : ℚ) (h1 : f64 d.val = a) (h2 : speedValue s = b)
    (h3 : f64 (a * b) = c) : scale d s = toInt64 c := by
  unfold scale
  rw [h1, h2, h3]

theorem speedValue_one : speedValue 1 = 1 := by
  have := speedValue_intCast 1 (by decide)
  simpa using this

theorem speedValue_half : speedValue (1 / 2) = 1 / 2 := by
  have h := f64_exact 1 (-1) (by decide) (by decide)
  have h2 : ((1 : Int) : ℚ) * 2 ^ (-1 : Int) = 1 / 2 := by norm_num
  rw [h2] at h
  apply speedValue_exact h <;> unfold maxFloat <;> norm_num

/-! ## The elapsed-time readout -/

/-- C1 (amended): `getElapsedTime` returns the accumulator of a Paused track,
and of a Playing track the `int64` sum of the accumulator and
`Duration(float64(Since(anchor)) * speed)`: `Since` is `now - anchor` saturated
to the range of `Duration`, the product is a `float64` product and the
conversion truncates.  A new track with a whole speed factor `n` that `play`
anchored at `t0` reads exactly `d * n` at `t0 + d` when `d`, `n` and `d * n`
are below `2^53` in magnitude: 4 s at speed 1 and 8 s at speed 2 for `d` =
4 s. -/
theorem getElapsedTime_formula (trk : Track) (now : Int) (sampleRate channels : Int)
    (t0 d n : Int) :
    (trk.paused = true → trk.getElapsedTime now = trk.elapsedTime) ∧
    (trk.paused = false →
      trk.getElapsedTime now = trk.elapsedTime + scale (since now trk.start) trk.speed) ∧
    (since now trk.start).val = max minDuration (min maxDuration (now - trk.start)) ∧
    (∀ (x : I64) (s : ℚ), scale x s = toInt64 (f64 (f64 x.val * speedValue s))) ∧
    (|d| < 9007199254740992 → |n| < 9007199254740992 → |d * n| < 9007199254740992 →
      (((newTrack sampleRate channels n).anchor t0).getElapsedTime (t0 + d)).val = d * n) ∧
    ((newTrack sampleRate channels 1).anchor t0).getElapsedTime (t0 + (4 * second).val)
      = 4 * second ∧
    ((newTrack sampleRate channels 2).anchor t0).getElapsedTime (t0 + (4 * second).val)
      = 8 * second := by
  have fresh : ∀ x m : Int, |x| < 9007199254740992 → |m| < 9007199254740992 →
      |x * m| < 9007199254740992 →
      ((newTrack sampleRate channels m).anchor t0).getElapsedTime (t0 + x)
        = I64.ofInt (x * m) := by
    intro x m hx hm hxm
    have hx2 := abs_lt.mp hx
    have hv : (I64.ofInt x).val = x := I64.val_ofInt (by omega) (by omega)
    have hs := scale_intCast (I64.ofInt x) m (by rw [hv]; exact hx) hm (by rw [hv]; exact hxm)
    rw [hv] at hs
    simp only [Track.getElapsedTime, Track.anchor, newTrack, Bool.false_eq_true, if_false]
    rw [since_add t0 x (by unfold minDuration; omega) (by unfold maxDuration; omega), hs,
      I64.zero_add]
  refine ⟨?_, ?_, since_val now trk.start, fun _ _ => rfl, ?_, ?_, ?_⟩
  · intro h
    simp [Track.getElapsedTime, h]
  · intro h
    simp [Track.getElapsedTime, h]
  · intro hd hn hdn
    rw [fresh d n hd hn hdn]
    have h2 := abs_lt.mp hdn
    exact I64.val_ofInt (by omega) (by omega)
  · have := fresh (4 * second).val 1 (by decide) (by decide) (by decide)
    simp only [Int.cast_one] at this
    rw [this]
    decide
  · have := fresh (4 * second).val 2 (by decide) (by decide) (by decide)
    simp only [Int.cast_ofNat] at this
    rw [this]
    decide

/-- Witness of C1: a paused track with 7 ns accumulated reads 7 ns, and a new
track with speed 2 anchored at 1000 ns reads 6000 ns at 4000 ns. -/
theorem getElapsedTime_formula_witness :
    ({ (newTrack 44100 2 2) with
        elapsedTime := 7, start := 1000, paused := true } : Track).getElapsedTime 4000 = 7 ∧
      (((newTrack 44100 2 ((2 : Int) : ℚ)).anchor 1000).getElapsedTime (1000 + 3000)).val
        = 3000 * 2 :=
  ⟨(getElapsedTime_formula
      { (newTrack 44100 2 2) with
        elapsedTime := 7, start := 1000, paused := true } 4000 44100 2 1000 3000 2).1 rfl,
    (getElapsedTime_formula (newTrack 44100 2 2) 4000 44100 2 1000 3000 2).2.2.2.2.1
      (by decide) (by decide) (by decide)⟩

/-- Counterexample to C1 as stated: a track with speed 1 anchored at 1000 ns
reads `2^53` ns when `now - anchor` is `2^53 + 1` ns, because the conversion
of the interval to `float64` rounds; and a new track with speed 1 that `play`
has not anchored yet reads `-2^63` ns at a clock 63.9e18 ns after the zero
time, because `Since` saturates at `2^63 - 1`, whose `float64` is `2^63`,
which is beyond the range of `int64`. -/
theorem getElapsedTime_formula_counterexample :
    (((newTrack 44100 2 1).anchor 1000).getElapsedTime (1000 + 9007199254740993)).val
        = 9007199254740992 ∧
      (9007199254740992 : Int) ≠ 0 + (1000 + 9007199254740993 - 1000) * 1 ∧
      ((newTrack 44100 2 1).getElapsedTime 63900000000000000000).val
        = -9223372036854775808 ∧
      (-9223372036854775808 : Int) ≠ 0 + (63900000000000000000 - 0) * 1 := by
  refine ⟨?_, by decide, ?_, by decide⟩
  · have hs : since (1000 + 9007199254740993) 1000 = I64.ofInt 9007199254740993 :=
      since_add 1000 9007199254740993 (by decide) (by decide)
    have hf : f64 ((I64.ofInt 9007199254740993).val : ℚ) = 9007199254740992 := by
      have : (I64.ofInt 9007199254740993).val = 9007199254740993 := by decide
      rw [this]
      exact_mod_cast f64_tie
    have hp : f64 ((9007199254740992 : ℚ) * 1) = ((9007199254740992 : Int) : ℚ) := by
      have h := f64_exact 1 53 (by decide) (by decide)
      norm_num at h ⊢
      exact h
    simp only [Track.getElapsedTime, Track.anchor, newTrack, Bool.false_eq_true, if_false]
    rw [hs, scale_eval _ _ _ _ _ hf speedValue_one hp,
      toInt64_intCast _ (by decide) (by decide), I64.zero_add]
    decide
  · have hs : (since 63900000000000000000 0).val = 9223372036854775807 := by decide
    have hf : f64 ((since 63900000000000000000 0).val : ℚ) = 9223372036854775808 := by
      rw [hs]
      exact_mod_cast f64_maxDuration
    have hp : f64 ((9223372036854775808 : ℚ) * 1) = 9223372036854775808 := by
      have h := f64_exact 1 63 (by decide) (by decide)
      norm_num at h ⊢
      exact h
    simp only [Track.getElapsedTime, newTrack, Bool.false_eq_true, if_false]
    rw [scale_eval _ _ _ _ _ hf speedValue_one hp, I64.zero_add]
    unfold toInt64
    rw [if_neg (by norm_num)]
    decide

/-! ## Continuity across pause, resume and speed change -/

/-- C2: on a track whose anchor is set, `pause(true)`, `pause(false)` and
`setSpeed(f)` executed at `t` leave the value `getElapsedTime` reads at `t`
unchanged; `pause(true)` at `t` followed by `pause(false)` at any `t2` reads at
`t2` what the track read at `t` before the two calls; and `setSpeed` on a
Playing track folds the interval since the anchor with the old factor, moves
the anchor to `t` and counts the time after `t` with the new factor. -/
theorem transitions_continuous (trk : Track) (t : Int) (hstart : trk.start ≠ 0) :
    (∀ p : Bool, (trk.pause p t).1.getElapsedTime t = trk.getElapsedTime t) ∧
    (∀ f : ℚ, (trk.setSpeed f t t).getElapsedTime t = trk.getElapsedTime t) ∧
    (∀ t2 : Int,
      ((trk.pause true t).1.pause false t2).1.getElapsedTime t2 = trk.getElapsedTime t) ∧
    (∀ (f : ℚ) (d : Int), trk.paused = false → minDuration ≤ d → d ≤ maxDuration →
      (trk.setSpeed f t t).elapsedTime
          = trk.elapsedTime + scale (since t trk.start) trk.speed ∧
        (trk.setSpeed f t t).start = t ∧
        (trk.setSpeed f t t).speed = f ∧
        (trk.setSpeed f t t).getElapsedTime (t + d)
          = trk.elapsedTime + scale (since t trk.start) trk.speed
            + scale (I64.ofInt d) f) := by
  refine ⟨fun p => pause_elapsed trk p t (Or.inr hstart),
    fun f => setSpeed_elapsed trk f t, ?_, ?_⟩
  · intro t2
    have h1 := pause_elapsed trk true t (Or.inr hstart)
    have hp : (trk.pause true t).1.paused = true := pause_paused trk true t
    have h2 : (trk.pause true t).1.getElapsedTime t = (trk.pause true t).1.elapsedTime := by
      simp [Track.getElapsedTime, hp]
    rw [pause_false_of_paused _ t2 hp, ← h1, h2]
    simp [Track.getElapsedTime, since_self, scale_zero, I64.add_zero]
  · intro f d hp h1 h2
    simp [Track.setSpeed, Track.getElapsedTime, hp, since_add t d h1 h2]

/-- The reading of a Playing track with a whole speed factor, by exact
arithmetic below `2^53`. -/
theorem elapsed_eval (trk : Track) (now : Int) (n : Nat) (hp : trk.paused = false)
    (hs : trk.speed = n) (hd : |(since now trk.start).val| < 9007199254740992)
    (hn : |(n : Int)| < 9007199254740992)
    (hz : |(since now trk.start).val * n| < 9007199254740992) :
    trk.getElapsedTime now = trk.elapsedTime + I64.ofInt ((since now trk.start).val * n) := by
  simp only [Track.getElapsedTime, hp, Bool.false_eq_true, if_false]
  rw [hs, scale_ofNat _ n hd hn hz]

/-- Witness of C2: a track anchored at 1000 ns with speed 2, read at 5000 ns,
reports 8000 ns before and after `pause(true)`. -/
theorem transitions_continuous_witness :
    ((newTrack 44100 2 2).anchor 1000).start ≠ 0 ∧
      ((((newTrack 44100 2 2).anchor 1000).pause true 5000).1.getElapsedTime 5000
        = ((newTrack 44100 2 2).anchor 1000).getElapsedTime 5000) ∧
      ((newTrack 44100 2 2).anchor 1000).getElapsedTime 5000 = 8000 :=
  ⟨by decide,
    (transitions_continuous ((newTrack 44100 2 2).anchor 1000) 5000 (by decide)).1 true,
    by
      rw [elapsed_eval _ 5000 2 rfl (by simp [Track.anchor, newTrack]) (by decide) (by decide)
        (by decide)]
      decide⟩

/-! ## Rewind -/

theorem clamp_eq_max (x : I64) : (if x < 0 then 0 else x) = max 0 x := by
  show (if x < 0 then 0 else x) = if (0 : I64) ≤ x then x else 0
  by_cases h : x < 0
  · have h2 : ¬ (0 : I64) ≤ x := fun h3 => absurd (show x.val < (0 : I64).val from h)
      (not_lt.mpr (show (0 : I64).val ≤ x.val from h3))
    rw [if_pos h, if_neg h2]
  · have h2 : (0 : I64) ≤ x := show (0 : I64).val ≤ x.val from
      not_lt.mp (fun h3 => h (show x.val < (0 : I64).val from h3))
    rw [if_neg h, if_pos h2]

theorem unanchored_half :
    (newTrack 44100 2 (1 / 2)).getElapsedTime 63900000000000000000
      = I64.ofInt 4611686018427387904 := by
  have hs : (since 63900000000000000000 0).val = 9223372036854775807 := by decide
  have hf : f64 ((since 63900000000000000000 0).val : ℚ) = 9223372036854775808 := by
    rw [hs]
    exact_mod_cast f64_maxDuration
  have hp : f64 ((9223372036854775808 : ℚ) * (1 / 2)) = ((4611686018427387904 : Int) : ℚ) := by
    have h := f64_exact 1 62 (by decide) (by decide)
    norm_num at h ⊢
    exact h
  simp only [Track.getElapsedTime, newTrack, Bool.false_eq_true, if_false]
  rw [scale_eval _ _ _ _ _ hf speedValue_half hp, toInt64_intCast _ (by decide) (by decide),
    I64.zero_add]

theorem rewindLocked_ok (trk : Track) (offset : I64) (seek : I64 → Option Error)
    (reads : List Nat)
    (hseek : seek (trk.offsetInBytes (max 0 (trk.elapsedTime + offset))) = none)
    (hdrain : Track.drainStream reads = true) :
    trk.rewindLocked offset seek reads =
      some ({ trk with elapsedTime := max 0 (trk.elapsedTime + offset), beRewind := true },
        none) := by
  have hmax := clamp_eq_max (trk.elapsedTime + offset)
  simp only [Track.rewindLocked, hmax, hseek, hdrain, if_true]

theorem rewindLocked_err (trk : Track) (offset : I64) (seek : I64 → Option Error)
    (reads : List Nat) (err : Error)
    (hseek : seek (trk.offsetInBytes (max 0 (trk.elapsedTime + offset))) = some err) :
    trk.rewindLocked offset seek reads = some (trk, some err) := by
  have hmax := clamp_eq_max (trk.elapsedTime + offset)
  simp only [Track.rewindLocked, hmax, hseek]

theorem pause_offsetInBytes (trk : Track) (p : Bool) (now : Int) (d : I64) :
    (trk.pause p now).1.offsetInBytes d = trk.offsetInBytes d := by
  cases hp : trk.paused <;> cases p
  · rw [pause_same trk false now hp]
  · rw [pause_true_of_playing trk now hp]; rfl
  · rw [pause_false_of_paused trk now hp]; rfl
  · rw [pause_same trk true now hp]

theorem pause_true_elapsedTime (trk : Track) (t : Int)
    (h : trk.paused = true ∨ trk.start ≠ 0) :
    (trk.pause true t).1.elapsedTime = trk.getElapsedTime t := by
  have h1 := pause_elapsed trk true t h
  have hp := pause_paused trk true t
  rw [← h1]
  simp [Track.getElapsedTime, hp]

/-- The successful path of `rewind`, written out. -/
theorem rewind_ok (trk : Track) (offset : I64) (seek : I64 → Option Error)
    (reads : List Nat) (t1 t2 : Int)
    (hanch : trk.paused = true ∨ trk.start ≠ 0)
    (hseek : seek (trk.offsetInBytes (max 0 (trk.getElapsedTime t1 + offset))) = none)
    (hdrain : Track.drainStream reads = true) :
    trk.rewind offset seek reads t1 t2 =
      some (if trk.paused then
          { trk with elapsedTime := max 0 (trk.getElapsedTime t1 + offset), beRewind := true }
        else
          { trk with
            elapsedTime := max 0 (trk.getElapsedTime t1 + offset),
            start := t2,
            beRewind := false,
            wp := trk.wp ++
              [if trk.beRewind then DevCall.stop else DevCall.pause true, DevCall.stop] },
        none) := by
  have he := pause_true_elapsedTime trk t1 hanch
  have hoff := pause_offsetInBytes trk true t1
  have hl := rewindLocked_ok (trk.pause true t1).1 offset seek reads
    (by rw [hoff, he]; exact hseek) hdrain
  unfold Track.rewind
  simp only [hl]
  rw [he]
  cases hp : trk.paused
  · rw [pause_true_of_playing trk t1 hp]
    simp [pause_false_of_paused]
  · rw [pause_same trk true t1 hp]
    simp [hp]

/-- C3 (amended): for a track that is Paused or whose anchor is set, a
`rewind(offset)` whose decoder seek succeeds and whose drain loop ends returns
nil and makes `getElapsedTime`, read at the clock of the return, equal to the
clamped `int64` sum of `e` and `offset`, `e` being the value read at the clock
of the call; whenever `e + offset` fits an `int64` that is `max 0 (e + offset)`,
and 0 when `e + offset < 0`; and on a Paused track a following `pause(false)` at
`t3` makes a read at `t3 + d` return the target plus `d` scaled by the
speed. -/
theorem rewind_target (trk : Track) (offset : I64) (seek : I64 → Option Error)
    (reads : List Nat) (t1 t2 : Int)
    (hanch : trk.paused = true ∨ trk.start ≠ 0)
    (hlo : minDuration ≤ (trk.getElapsedTime t1).val + offset.val)
    (hhi : (trk.getElapsedTime t1).val + offset.val ≤ maxDuration)
    (hseek : seek (trk.offsetInBytes (max 0 (trk.getElapsedTime t1 + offset))) = none)
    (hdrain : Track.drainStream reads = true) :
    ∃ trk2 : Track, trk.rewind offset seek reads t1 t2 = some (trk2, none) ∧
      (trk2.getElapsedTime t2).val = max 0 ((trk.getElapsedTime t1).val + offset.val) ∧
      ((trk.getElapsedTime t1).val + offset.val < 0 → trk2.getElapsedTime t2 = 0) ∧
      (trk.paused = true → ∀ t3 d : Int, minDuration ≤ d → d ≤ maxDuration →
        (trk2.pause false t3).1.getElapsedTime (t3 + d)
          = max 0 (trk.elapsedTime + offset) + scale (I64.ofInt d) trk.speed) := by
  have hval : ∀ x : I64,
      (if trk.paused then { trk with elapsedTime := x, beRewind := true }
        else
          { trk with
            elapsedTime := x,
            start := t2,
            beRewind := false,
            wp := trk.wp ++
              [if trk.beRewind then DevCall.stop else DevCall.pause true, DevCall.stop] }
        : Track).getElapsedTime t2 = x := by
    intro x
    cases hp : trk.paused <;>
      simp [Track.getElapsedTime, hp, since_self, scale_zero, I64.add_zero]
  have hsum : (trk.getElapsedTime t1 + offset).val
      = (trk.getElapsedTime t1).val + offset.val := by
    unfold minDuration at hlo
    unfold maxDuration at hhi
    rw [I64.add_val, wrap_of_range hlo hhi]
  refine ⟨_, rewind_ok trk offset seek reads t1 t2 hanch hseek hdrain, ?_, ?_, ?_⟩
  · rw [hval, I64.max_val, hsum, I64.zero_val]
  · intro hneg
    rw [hval]
    apply I64.ext
    rw [I64.max_val, hsum, I64.zero_val, max_eq_left (by omega)]
  · intro hp t3 d h1 h2
    simp only [hp, if_true]
    rw [pause_false_of_paused _ t3 rfl]
    simp [Track.getElapsedTime, hp, since_add t3 d h1 h2]

/-- Witness of C3: a track paused at 3 s, speed 2, rewound by +2 s with a
seekable decoder and an empty stream. -/
theorem rewind_target_witness :
    ∃ trk2 : Track,
      ({ (newTrack 44100 2 2) with
          paused := true, elapsedTime := 3 * second, start := 1000 } : Track).rewind
            (2 * second) (fun _ => none) [0] 5000 5000 = some (trk2, none) ∧
      (trk2.getElapsedTime 5000).val = 5000000000 ∧
      (trk2.pause false 6000).1.getElapsedTime (6000 + 1000000000) = 7 * second := by
  obtain ⟨trk2, h1, h2, -, h4⟩ := rewind_target
    { (newTrack 44100 2 2) with
      paused := true, elapsedTime := 3 * second, start := 1000 }
    (2 * second) (fun _ => none) [0] 5000 5000 (Or.inl rfl) (by decide) (by decide) rfl rfl
  refine ⟨trk2, h1, ?_, ?_⟩
  · rw [h2]; decide
  · rw [h4 rfl 6000 1000000000 (by decide) (by decide)]
    have hs := scale_ofNat (I64.ofInt 1000000000) 2 (by decide) (by decide) (by decide)
    simp only [Nat.cast_ofNat] at hs
    show max 0 (3 * second + 2 * second) + scale (I64.ofInt 1000000000) 2 = 7 * second
    rw [hs]
    decide

/-- Counterexample to C3 as stated: a new track with speed 1/2 that `play` has
not anchored yet reads more than 4e18 ns; `rewind(0)` with a successful seek
returns nil and leaves a track that reads 0 at the same clock.  And a track
paused at 3 s on which `rewind(2^63 - 1)` succeeds reads 0 afterwards, because
the `int64` sum wraps to a negative number, where `max 0 (e + offset)` is
9223372039854775807. -/
theorem rewind_target_counterexample :
    4000000000000000000 < (newTrack 44100 2 (1/2)).getElapsedTime 63900000000000000000 ∧
      ((newTrack 44100 2 (1/2)).rewind 0 (fun _ => none) [0]
          63900000000000000000 63900000000000000000).map
        (fun r => (r.1.getElapsedTime 63900000000000000000, r.2)) = some (0, none) ∧
      (0 : I64) ≠ max 0 ((newTrack 44100 2 (1/2)).getElapsedTime 63900000000000000000 + 0) ∧
      (({ (newTrack 44100 2 1) with
          paused := true, elapsedTime := 3 * second, start := 1000 } : Track).rewind
            9223372036854775807 (fun _ => none) [0] 5000 5000).map
        (fun r => ((r.1.getElapsedTime 5000).val, r.2)) = some (0, none) ∧
      (0 : Int) ≠ max 0 (3000000000 + 9223372036854775807) := by
  refine ⟨by rw [unanchored_half]; decide, ?_, by rw [unanchored_half]; decide, by decide,
    by decide⟩
  simp [Track.rewind, Track.rewindLocked, Track.pause, Track.drainStream, newTrack,
    Track.getElapsedTime, since_self, scale_zero, I64.add_zero]

/-! ## Repeated pause calls -/

/-- C4: `pause(p)` on a track whose paused flag already equals `p` returns
false and returns the track unchanged, every field and the list of device
calls included; so a second `pause(p)` right after a first one changes
nothing, and `pause(false)` on a new track changes nothing. -/
theorem pause_noop (trk : Track) (p : Bool) (now now2 : Int) (sampleRate channels : Int)
    (s : ℚ) :
    (trk.paused = p → trk.pause p now = (trk, false)) ∧
    (trk.pause p now).1.pause p now2 = ((trk.pause p now).1, false) ∧
    (newTrack sampleRate channels s).pause false now = (newTrack sampleRate channels s, false) :=
  ⟨pause_same trk p now, pause_same _ p now2 (pause_paused trk p now),
    pause_same _ false now rfl⟩

/-- Witness of C4: a second `pause(true)` on a track paused at 5000 ns. -/
theorem pause_noop_witness :
    (((newTrack 44100 2 2).anchor 1000).pause true 5000).1.paused = true ∧
      (((newTrack 44100 2 2).anchor 1000).pause true 5000).1.pause true 9000
        = ((((newTrack 44100 2 2).anchor 1000).pause true 5000).1, false) :=
  ⟨by decide,
    (pause_noop (((newTrack 44100 2 2).anchor 1000).pause true 5000).1 true 9000 0 44100 2
      2).1 (by decide)⟩

/-! ## A rewind whose seek fails -/

/-- The failing path of `rewind`, written out. -/
theorem rewind_err (trk : Track) (offset : I64) (seek : I64 → Option Error)
    (reads : List Nat) (t1 t2 : Int) (err : Error)
    (hanch : trk.paused = true ∨ trk.start ≠ 0)
    (hseek : seek (trk.offsetInBytes (max 0 (trk.getElapsedTime t1 + offset))) = some err) :
    trk.rewind offset seek reads t1 t2 =
      some (if trk.paused then trk
        else
          { trk with
            elapsedTime := trk.getElapsedTime t1,
            start := t2,
            beRewind := false,
            wp := trk.wp ++
              [if trk.beRewind then DevCall.stop else DevCall.pause true,
                DevCall.pause false] },
        some err) := by
  have he := pause_true_elapsedTime trk t1 hanch
  have hoff := pause_offsetInBytes trk true t1
  have hl := rewindLocked_err (trk.pause true t1).1 offset seek reads err
    (by rw [hoff, he]; exact hseek)
  unfold Track.rewind
  simp only [hl]
  cases hp : trk.paused
  · have hq := pause_true_of_playing trk t1 hp
    rw [hq] at he
    rw [hq]
    simp only [if_true]
    rw [pause_false_of_paused _ t2 rfl]
    simp at he
    simp [he]
  · rw [pause_same trk true t1 hp]
    simp

/-- C5 (amended): on a track that is Paused or whose anchor is set, a
`rewind(offset)` whose decoder seek fails returns that error, whatever the
stream holds, and leaves the paused flag, the speed factor and the value
`getElapsedTime` reads at the clock of the return equal to their values at the
call; the pending-seek flag too keeps its value in every state where a pending
seek implies Paused. -/
theorem rewind_seek_error (trk : Track) (offset : I64) (seek : I64 → Option Error)
    (reads : List Nat) (t1 t2 : Int) (err : Error)
    (hanch : trk.paused = true ∨ trk.start ≠ 0)
    (hseek : seek (trk.offsetInBytes (max 0 (trk.getElapsedTime t1 + offset))) = some err) :
    ∃ trk2 : Track, trk.rewind offset seek reads t1 t2 = some (trk2, some err) ∧
      trk2.paused = trk.paused ∧
      trk2.speed = trk.speed ∧
      trk2.getElapsedTime t2 = trk.getElapsedTime t1 ∧
      ((trk.beRewind = true → trk.paused = true) → trk2.beRewind = trk.beRewind) := by
  refine ⟨_, rewind_err trk offset seek reads t1 t2 err hanch hseek, ?_, ?_, ?_, ?_⟩
  · cases hp : trk.paused <;> simp [hp]
  · cases hp : trk.paused <;> simp [hp]
  · cases hp : trk.paused
    · simp [Track.getElapsedTime, hp, since_self, scale_zero, I64.add_zero]
    · simp [Track.getElapsedTime, hp]
  · intro hwf
    cases hp : trk.paused
    · cases hb : trk.beRewind
      · simp [hp, hb]
      · rw [hwf hb] at hp; cases hp
    · simp [hp]

/-- Witness of C5: a Playing track anchored at 1000 ns, speed 2, rewound at
5000 ns on a decoder that cannot seek. -/
theorem rewind_seek_error_witness :
    ∃ trk2 : Track,
      ((newTrack 44100 2 2).anchor 1000).rewind (5 * second) (fun _ => some "not seekable")
          [] 5000 5000 = some (trk2, some "not seekable") ∧
      trk2.paused = false ∧ trk2.getElapsedTime 5000 = 8000 ∧ trk2.beRewind = false := by
  obtain ⟨trk2, h1, h2, -, h4, h5⟩ := rewind_seek_error ((newTrack 44100 2 2).anchor 1000)
    (5 * second) (fun _ => some "not seekable") [] 5000 5000 "not seekable"
    (Or.inr (by decide)) rfl
  refine ⟨trk2, h1, h2, ?_, h5 (by decide)⟩
  rw [h4, elapsed_eval _ 5000 2 rfl (by simp [Track.anchor, newTrack]) (by decide) (by decide)
    (by decide)]
  decide

/-- Counterexample to C5 as stated: a new track with speed 1/2 that `play` has
not anchored yet reads more than 4e18 ns; `rewind(0)` on a decoder that cannot
seek returns the error and leaves a track that reads 0 at the same clock. -/
theorem rewind_seek_error_counterexample :
    4000000000000000000 < (newTrack 44100 2 (1/2)).getElapsedTime 63900000000000000000 ∧
      ((newTrack 44100 2 (1/2)).rewind 0 (fun _ => some "not seekable") []
          63900000000000000000 63900000000000000000).map
        (fun r => (r.1.getElapsedTime 63900000000000000000, r.2))
        = some (0, some "not seekable") := by
  constructor
  · rw [unanchored_half]; decide
  · simp [Track.rewind, Track.rewindLocked, Track.pause, newTrack,
      Track.getElapsedTime, since_self, scale_zero, I64.add_zero]

/-! ## Elapsed time of a stopped track -/

/-- C6 (amended): `stop` sets the stopped flag and changes neither the paused
flag, the accumulator, the anchor nor the speed, so `getElapsedTime` reads the
same before and after it at every clock; a track stopped while Paused reads
exactly the accumulator at every clock, and a track stopped while Playing goes
on reading the accumulator plus the scaled clock difference since the
anchor. -/
theorem stop_elapsed (trk : Track) (t : Int) :
    trk.stop.stopped = true ∧
    trk.stop.paused = trk.paused ∧
    trk.stop.elapsedTime = trk.elapsedTime ∧
    trk.stop.start = trk.start ∧
    trk.stop.speed = trk.speed ∧
    trk.stop.getElapsedTime t = trk.getElapsedTime t ∧
    (trk.paused = true → trk.stop.getElapsedTime t = trk.stop.elapsedTime) ∧
    (trk.paused = false →
      trk.stop.getElapsedTime t
        = trk.stop.elapsedTime + scale (since t trk.start) trk.speed) := by
  refine ⟨rfl, rfl, rfl, rfl, rfl, rfl, ?_, ?_⟩
  · intro hp
    simp [Track.stop, Track.getElapsedTime, hp]
  · intro hp
    simp [Track.stop, Track.getElapsedTime, hp]

/-- Witness of C6: a track paused with 3 s accumulated, then stopped, reads
3 s at a later clock. -/
theorem stop_elapsed_witness :
    ({ (newTrack 44100 2 2) with
        paused := true, elapsedTime := 3 * second, start := 1000 } : Track).stop.getElapsedTime
          9000000000000 = 3 * second :=
  (stop_elapsed
    { (newTrack 44100 2 2) with
      paused := true, elapsedTime := 3 * second, start := 1000 } 9000000000000).2.2.2.2.2.2.1 rfl

/-- Counterexample to C6 as stated: a track anchored at 1000 ns with speed 1
and an empty accumulator is stopped while Playing; it then reads 4000 ns at
5000 ns and 8000 ns at 9000 ns, neither of them the accumulator 0. -/
theorem stop_elapsed_counterexample :
    ((newTrack 44100 2 1).anchor 1000).stop.stopped = true ∧
      ((newTrack 44100 2 1).anchor 1000).stop.elapsedTime = 0 ∧
      ((newTrack 44100 2 1).anchor 1000).stop.getElapsedTime 5000 = 4000 ∧
      ((newTrack 44100 2 1).anchor 1000).stop.getElapsedTime 9000 = 8000 := by
  refine ⟨by decide, by decide, ?_, ?_⟩
  · rw [elapsed_eval _ 5000 1 rfl (by simp [Track.anchor, Track.stop, newTrack]) (by decide)
      (by decide) (by decide)]
    decide
  · rw [elapsed_eval _ 9000 1 rfl (by simp [Track.anchor, Track.stop, newTrack]) (by decide)
      (by decide) (by decide)]
    decide

/-! ## The play/pause state across a rewind -/

theorem rewindLocked_paused (trk : Track) (offset : I64) (seek : I64 → Option Error)
    (reads : List Nat) (res : Track × Option Error)
    (h : trk.rewindLocked offset seek reads = some res) : res.1.paused = trk.paused := by
  unfold Track.rewindLocked at h
  simp only at h
  split at h
  · cases h; rfl
  · split at h
    · cases h; rfl
    · cases h

theorem rewindLocked_isSome (trk : Track) (offset : I64) (seek : I64 → Option Error)
    (reads : List Nat) (h : Track.drainStream reads = true ∨ ∀ off, seek off ≠ none) :
    (trk.rewindLocked offset seek reads).isSome = true := by
  unfold Track.rewindLocked
  simp only
  split
  · rfl
  · rename_i hs
    rcases h with h | h
    · simp [h]
    · exact absurd hs (h _)

/-- C7: `rewind` runs its seek on a paused track (the opening `pause(true)`
leaves the paused flag set and the locked section keeps it), and whenever it
returns, with nil or with the seek error, the paused flag is what it was
before the call; it does return when the drain loop ends or the seek
fails. -/
theorem rewind_restores_paused (trk : Track) (offset : I64) (seek : I64 → Option Error)
    (reads : List Nat) (t1 t2 : Int) :
    (trk.pause true t1).1.paused = true ∧
    (∀ res, (trk.pause true t1).1.rewindLocked offset seek reads = some res →
      res.1.paused = true) ∧
    (∀ res, trk.rewind offset seek reads t1 t2 = some res → res.1.paused = trk.paused) ∧
    ((Track.drainStream reads = true ∨ ∀ off, seek off ≠ none) →
      (trk.rewind offset seek reads t1 t2).isSome = true) := by
  have hp1 := pause_paused trk true t1
  refine ⟨hp1, fun res h => (rewindLocked_paused _ _ _ _ _ h).trans hp1, ?_, ?_⟩
  · intro res h
    unfold Track.rewind at h
    simp only at h
    split at h
    · cases h
    · rename_i trk1 err hl
      have hq := rewindLocked_paused _ _ _ _ _ hl
      simp only at hq
      cases hp : trk.paused
      · rw [pause_true_of_playing trk t1 hp] at h
        simp only [if_true] at h
        cases h
        exact pause_paused trk1 false t2
      · rw [pause_same trk true t1 hp] at h hq
        simp only [Bool.false_eq_true, if_false] at h
        cases h
        rw [hq, hp]
  · intro h
    have hs := rewindLocked_isSome (trk.pause true t1).1 offset seek reads h
    unfold Track.rewind
    simp only
    split
    · rename_i hn
      rw [hn] at hs; cases hs
    · split <;> rfl

/-- Witness of C7: a Playing track is Playing again after a rewind whose seek
succeeds and whose drain loop ends after one read. -/
theorem rewind_restores_paused_witness :
    Track.drainStream [512, 0] = true ∧
      (((newTrack 44100 2 2).anchor 1000).rewind (5 * second) (fun _ => none) [512, 0]
        5000 6000).isSome = true ∧
      (((newTrack 44100 2 2).anchor 1000).pause true 5000).1.paused = true ∧
      (((newTrack 44100 2 2).anchor 1000).rewind (5 * second) (fun _ => none) [512, 0]
        5000 6000).map (fun r => r.1.paused) = some false := by
  have h := rewind_restores_paused ((newTrack 44100 2 2).anchor 1000) (5 * second)
    (fun _ => none) [512, 0] 5000 6000
  have hsome := h.2.2.2 (Or.inl (by decide))
  refine ⟨by decide, hsome, h.1, ?_⟩
  obtain ⟨res, hres⟩ := Option.isSome_iff_exists.mp hsome
  rw [hres, Option.map_some']
  exact congrArg some (h.2.2.1 res hres)

/-- A pending seek implies Paused: the property holds of a new track and every
transport operation keeps it. -/
theorem pendingSeek_paused (trk : Track) (h : trk.beRewind = true → trk.paused = true) :
    (∀ (sampleRate channels : Int) (s : ℚ),
      (newTrack sampleRate channels s).beRewind = true →
        (newTrack sampleRate channels s).paused = true) ∧
    (∀ (p : Bool) (now : Int),
      (trk.pause p now).1.beRewind = true → (trk.pause p now).1.paused = true) ∧
    (∀ (f : ℚ) (now1 now2 : Int),
      (trk.setSpeed f now1 now2).beRewind = true → (trk.setSpeed f now1 now2).paused = true) ∧
    (trk.stop.beRewind = true → trk.stop.paused = true) ∧
    (∀ now : Int, (trk.anchor now).beRewind = true → (trk.anchor now).paused = true) ∧
    (∀ (offset : I64) (seek : I64 → Option Error) (reads : List Nat) (t1 t2 : Int)
      (res : Track × Option Error), trk.rewind offset seek reads t1 t2 = some res →
        res.1.beRewind = true → res.1.paused = true) := by
  refine ⟨?_, ?_, ?_, h, fun _ => h, ?_⟩
  · intro sampleRate channels s hb
    cases hb
  · intro p now
    cases hp : trk.paused <;> cases p
    · rw [pause_same trk false now hp]; exact h
    · rw [pause_true_of_playing trk now hp]; intro _; rfl
    · rw [pause_false_of_paused trk now hp]; intro hb; cases hb
    · rw [pause_same trk true now hp]; exact h
  · intro f now1 now2
    cases hp : trk.paused
    · have hb : trk.beRewind = false := by
        cases hb : trk.beRewind
        · rfl
        · rw [h hb] at hp; cases hp
      simp [Track.setSpeed, hp, hb]
    · simp [Track.setSpeed, hp]
  · intro offset seek reads t1 t2 res hres
    unfold Track.rewind at hres
    simp only at hres
    cases hl : (trk.pause true t1).1.rewindLocked offset seek reads with
    | none => rw [hl] at hres; cases hres
    | some q =>
      obtain ⟨trk1, err⟩ := q
      have hq := rewindLocked_paused _ _ _ _ _ hl
      rw [pause_paused trk true t1] at hq
      simp only at hq
      rw [hl] at hres
      simp only at hres
      cases hp : trk.paused
      · rw [pause_true_of_playing trk t1 hp] at hres
        simp only [if_true] at hres
        cases hres
        rw [pause_false_of_paused trk1 t2 hq]
        intro hb; cases hb
      · intro _
        rw [pause_same trk true t1 hp] at hres
        simp only [Bool.false_eq_true, if_false] at hres
        cases hres
        exact hq

/-! ## The exit of the pipeline task -/

theorem innerLoop_cons (trk : Track) (s : InnerStep) (rest : List InnerStep)
    (tr : List Action) :
    innerLoop trk (s :: rest) tr =
      if (if s.stopReq then trk.stop else trk).stopped then
        some (if s.stopReq then trk.stop else trk, tr)
      else if s.n = 0 then
        some (if s.stopReq then trk.stop else trk, tr ++ [Action.streamRead 0])
      else
        innerLoop
          { (if s.stopReq then trk.stop else trk) with
            wp := (if s.stopReq then trk.stop else trk).wp ++ [DevCall.write s.n] }
          rest (tr ++ [Action.streamRead s.n, Action.wp (DevCall.write s.n)]) := by
  rw [innerLoop]

theorem playLoop_cons (trk : Track) (r : Round) (rest : List Round) (tr : List Action) :
    playLoop trk (r :: rest) tr =
      if (if r.stopReq then trk.stop else trk).stopped then
        some (finish (if r.stopReq then trk.stop else trk) tr)
      else
        match innerLoop (if r.stopReq then trk.stop else trk) r.inner
            (tr ++ [Action.decRead r.n r.err, Action.streamWrite r.n] ++
              (if r.err.isSome then [Action.streamFlush] else [])) with
        | none => none
        | some (trk2, tr2) =>
          if r.err.isSome then some (finish trk2 tr2) else playLoop trk2 rest tr2 := by
  rw [playLoop]

theorem stopReq_false_of_running (trk : Track) (b : Bool)
    (h : ¬ (if b then trk.stop else trk).stopped = true) : b = false := by
  cases b
  · rfl
  · exact absurd rfl h

theorem innerLoop_trace (steps : List InnerStep) :
    ∀ (trk : Track) (tr : List Action) (res : Track × List Action),
      innerLoop trk steps tr = some res →
        ∃ mid, res.2 = tr ++ mid ∧ ∀ a ∈ mid, a.isTransfer = true := by
  induction steps with
  | nil => intro trk tr res h; cases h
  | cons s rest ih =>
    intro trk tr res h
    rw [innerLoop_cons] at h
    generalize (if s.stopReq then trk.stop else trk) = trk1 at h
    by_cases h1 : trk1.stopped = true
    · rw [if_pos h1] at h
      cases h
      exact ⟨[], by simp, by simp⟩
    · rw [if_neg h1] at h
      by_cases h2 : s.n = 0
      · rw [if_pos h2] at h
        cases h
        exact ⟨[Action.streamRead 0], rfl, by simp [Action.isTransfer]⟩
      · rw [if_neg h2] at h
        obtain ⟨mid, hmid, hall⟩ := ih _ _ _ h
        refine ⟨[Action.streamRead s.n, Action.wp (DevCall.write s.n)] ++ mid, ?_, ?_⟩
        · rw [hmid]; simp
        · intro a ha
          rcases List.mem_append.mp ha with ha | ha
          · simp only [List.mem_cons, List.mem_singleton] at ha
            rcases ha with rfl | rfl | ha
            · rfl
            · rfl
            · cases ha
          · exact hall a ha

theorem innerLoop_isSome (steps : List InnerStep) :
    ∀ (trk : Track) (tr : List Action), innerEnds steps = true →
      (innerLoop trk steps tr).isSome = true := by
  induction steps with
  | nil => intro trk tr h; cases h
  | cons s rest ih =>
    intro trk tr h
    rw [innerLoop_cons]
    by_cases h1 : (if s.stopReq then trk.stop else trk).stopped = true
    · rw [if_pos h1]; rfl
    · rw [if_neg h1]
      by_cases h2 : s.n = 0
      · rw [if_pos h2]; rfl
      · rw [if_neg h2]
        apply ih
        have hs := stopReq_false_of_running trk s.stopReq h1
        simpa [innerEnds, hs, h2] using h

theorem head_isTransfer (r : Round) :
    ∀ a ∈ [Action.decRead r.n r.err, Action.streamWrite r.n] ++
      (if r.err.isSome then [Action.streamFlush] else []), a.isTransfer = true := by
  intro a ha
  rcases List.mem_append.mp ha with ha | ha
  · simp only [List.mem_cons, List.mem_singleton] at ha
    rcases ha with rfl | rfl | ha
    · rfl
    · rfl
    · cases ha
  · by_cases he : r.err.isSome = true
    · rw [if_pos he, List.mem_singleton] at ha
      rw [ha]; rfl
    · rw [if_neg he] at ha
      cases ha

theorem playLoop_trace (script : List Round) :
    ∀ (trk : Track) (tr : List Action) (res : Track × List Action),
      playLoop trk script tr = some res →
        ∃ mid, res.2 = tr ++ mid ++
            [Action.wp DevCall.sync, Action.wp DevCall.close, Action.streamClose] ∧
          ∀ a ∈ mid, a.isTransfer = true := by
  induction script with
  | nil =>
    intro trk tr res h
    rw [playLoop] at h
    by_cases h1 : trk.stopped = true
    · rw [if_pos h1] at h
      cases h
      exact ⟨[], by simp [finish], by simp⟩
    · rw [if_neg h1] at h
      cases h
  | cons r rest ih =>
    intro trk tr res h
    rw [playLoop_cons] at h
    generalize (if r.stopReq then trk.stop else trk) = trk1 at h
    by_cases h1 : trk1.stopped = true
    · rw [if_pos h1] at h
      cases h
      exact ⟨[], by simp [finish], by simp⟩
    · rw [if_neg h1] at h
      cases hin : innerLoop trk1 r.inner
          (tr ++ [Action.decRead r.n r.err, Action.streamWrite r.n] ++
            (if r.err.isSome then [Action.streamFlush] else [])) with
      | none => rw [hin] at h; cases h
      | some p =>
        obtain ⟨trk2, tr2⟩ := p
        rw [hin] at h
        simp only at h
        obtain ⟨mid1, hmid1, hall1⟩ := innerLoop_trace _ _ _ _ hin
        simp only at hmid1
        by_cases he : r.err.isSome = true
        · rw [if_pos he] at h
          cases h
          refine ⟨[Action.decRead r.n r.err, Action.streamWrite r.n] ++
            (if r.err.isSome then [Action.streamFlush] else []) ++ mid1, ?_, ?_⟩
          · simp only [finish, hmid1, List.append_assoc]
          · intro a ha
            rcases List.mem_append.mp ha with ha | ha
            · exact head_isTransfer r a ha
            · exact hall1 a ha
        · rw [if_neg he] at h
          obtain ⟨mid2, hmid2, hall2⟩ := ih _ _ _ h
          refine ⟨[Action.decRead r.n r.err, Action.streamWrite r.n] ++
            (if r.err.isSome then [Action.streamFlush] else []) ++ mid1 ++ mid2, ?_, ?_⟩
          · rw [hmid2, hmid1]; simp only [List.append_assoc]
          · intro a ha
            rcases List.mem_append.mp ha with ha | ha
            · rcases List.mem_append.mp ha with ha | ha
              · exact head_isTransfer r a ha
              · exact hall1 a ha
            · exact hall2 a ha

theorem playLoop_stopped (trk : Track) (script : List Round) (tr : List Action)
    (h : trk.stopped = true) :
    ∃ trk2, playLoop trk script tr = some (finish trk2 tr) := by
  cases script with
  | nil => exact ⟨trk, by rw [playLoop, if_pos h]⟩
  | cons r rest =>
    refine ⟨if r.stopReq then trk.stop else trk, ?_⟩
    have hs : (if r.stopReq then trk.stop else trk).stopped = true := by
      cases r.stopReq
      · exact h
      · rfl
    rw [playLoop_cons, if_pos hs]

theorem playLoop_isSome (script : List Round) :
    ∀ (trk : Track) (tr : List Action),
      (∀ r ∈ script, innerEnds r.inner = true) →
      (∃ r ∈ script, r.stopReq = true ∨ r.err.isSome = true) →
      (playLoop trk script tr).isSome = true := by
  induction script with
  | nil =>
    intro trk tr _ hex
    obtain ⟨r, hr, _⟩ := hex
    cases hr
  | cons r rest ih =>
    intro trk tr hin hex
    rw [playLoop_cons]
    by_cases h1 : (if r.stopReq then trk.stop else trk).stopped = true
    · rw [if_pos h1]; rfl
    · rw [if_neg h1]
      have hs := stopReq_false_of_running trk r.stopReq h1
      have hi := innerLoop_isSome r.inner (if r.stopReq then trk.stop else trk)
        (tr ++ [Action.decRead r.n r.err, Action.streamWrite r.n] ++
          (if r.err.isSome then [Action.streamFlush] else []))
        (hin r (List.mem_cons_self _ _))
      cases hq : innerLoop (if r.stopReq then trk.stop else trk) r.inner
          (tr ++ [Action.decRead r.n r.err, Action.streamWrite r.n] ++
            (if r.err.isSome then [Action.streamFlush] else [])) with
      | none => rw [hq] at hi; cases hi
      | some p =>
        obtain ⟨trk2, tr2⟩ := p
        simp only
        by_cases he : r.err.isSome = true
        · rw [if_pos he]; rfl
        · rw [if_neg he]
          apply ih
          · intro r2 hr2
            exact hin r2 (List.mem_cons_of_mem _ hr2)
          · obtain ⟨r2, hr2, hprop⟩ := hex
            rcases List.mem_cons.mp hr2 with rfl | hr2
            · rcases hprop with hp | hp
              · rw [hs] at hp; cases hp
              · exact absurd hp he
            · exact ⟨r2, hr2, hprop⟩

/-- C8 (amended): whenever the pipeline task `play` returns, its actions are
transfer actions (decoder reads, stream writes, flushes and reads, device
writes) followed by exactly: sync the wave player, close the wave player, close
the time-stretch stream; no action closes the decoder.  It does return when the
track is already stopped, with those three actions only, and when every inner
loop ends and some round meets a stop request or a decoder read error. -/
theorem play_exit_actions (trk : Track) (now : Int) (script : List Round) :
    (∀ res, trk.play now script = some res →
      (∃ mid, res.2 = mid ++
          [Action.wp DevCall.sync, Action.wp DevCall.close, Action.streamClose] ∧
        ∀ a ∈ mid, a.isTransfer = true) ∧
      Action.decClose ∉ res.2) ∧
    (trk.stopped = true → ∃ trk2, trk.play now script =
      some (trk2, [Action.wp DevCall.sync, Action.wp DevCall.close, Action.streamClose])) ∧
    ((∀ r ∈ script, innerEnds r.inner = true) →
      (∃ r ∈ script, r.stopReq = true ∨ r.err.isSome = true) →
      (trk.play now script).isSome = true) := by
  refine ⟨?_, ?_, ?_⟩
  · intro res h
    obtain ⟨mid, hmid, hall⟩ := playLoop_trace script _ _ _ h
    simp only [List.nil_append] at hmid
    refine ⟨⟨mid, hmid, hall⟩, ?_⟩
    rw [hmid]
    intro hmem
    rcases List.mem_append.mp hmem with hm | hm
    · have := hall _ hm
      simp [Action.isTransfer] at this
    · simp at hm
  · intro hs
    obtain ⟨trk2, h2⟩ := playLoop_stopped (trk.anchor now) script [] hs
    exact ⟨(finish trk2 []).1, h2⟩
  · intro hin hex
    exact playLoop_isSome script _ _ hin hex

/-- Witness of C8: one round whose decoder read reports the end of the stream;
the stream hands out 512 bytes and then nothing. -/
theorem play_exit_actions_witness :
    ((newTrack 44100 2 1).play 1000
        [⟨false, 300, some ReadErr.eof, [⟨false, 512⟩, ⟨false, 0⟩]⟩]).isSome = true ∧
      ((newTrack 44100 2 1).stop.play 1000 []).map Prod.snd =
        some [Action.wp DevCall.sync, Action.wp DevCall.close, Action.streamClose] := by
  refine ⟨(play_exit_actions (newTrack 44100 2 1) 1000
      [⟨false, 300, some ReadErr.eof, [⟨false, 512⟩, ⟨false, 0⟩]⟩]).2.2
        (by decide) (by decide), ?_⟩
  obtain ⟨trk2, h⟩ := (play_exit_actions (newTrack 44100 2 1).stop 1000 []).2.1 rfl
  rw [h]; rfl

/-- Counterexample to C8 as stated: the pipeline of a track stopped before
`play` runs performs sync, close of the wave player and close of the stream,
and the pipeline that meets the end of the stream ends with the same three
actions; neither closes the decoder. -/
theorem play_exit_actions_counterexample :
    ((newTrack 44100 2 1).stop.play 1000 []).map Prod.snd =
        some [Action.wp DevCall.sync, Action.wp DevCall.close, Action.streamClose] ∧
      ((newTrack 44100 2 1).play 1000
          [⟨false, 300, some ReadErr.eof, [⟨false, 512⟩, ⟨false, 0⟩]⟩]).map Prod.snd =
        some [Action.decRead 300 (some ReadErr.eof), Action.streamWrite 300,
          Action.streamFlush, Action.streamRead 512, Action.wp (DevCall.write 512),
          Action.streamRead 0, Action.wp DevCall.sync, Action.wp DevCall.close,
          Action.streamClose] ∧
      Action.decClose ∉ [Action.wp DevCall.sync, Action.wp DevCall.close,
        Action.streamClose] := by
  decide

/-! ## Monotonicity of the readout -/

theorem getElapsedTime_mono (trk : Track) (hs : 0 ≤ trk.speed) {a b : Int} (h : a ≤ b)
    (hst : trk.paused = true ∨ trk.start ≤ a) (hfit : trk.fits b) :
    (trk.getElapsedTime a).val ≤ (trk.getElapsedTime b).val := by
  cases hp : trk.paused
  · have hsa : trk.start ≤ a := by
      rcases hst with h1 | h1
      · rw [hp] at h1; cases h1
      · exact h1
    have hf : f64 (f64 (since b trk.start).val * speedValue trk.speed) < 9223372036854775808 ∧
        trk.elapsedTime.val + (scale (since b trk.start) trk.speed).val ≤ maxDuration := by
      rcases hfit with h1 | h1
      · rw [hp] at h1; cases h1
      · exact h1
    obtain ⟨h0, hle, -⟩ := scale_mono_of_fit (since a trk.start) (since b trk.start) trk.speed
      (since_nonneg hsa) (since_mono trk.start h) hs hf.1
    have hhi := hf.2
    unfold maxDuration at hhi
    have hlo := trk.elapsedTime.lo
    simp only [Track.getElapsedTime, hp, Bool.false_eq_true, if_false]
    rw [I64.add_val, I64.add_val, wrap_of_range (by omega) (by omega),
      wrap_of_range (by omega) (by omega)]
    omega
  · simp [Track.getElapsedTime, hp]

theorem pause_keeps (trk : Track) (t : Int) (p : Bool) (now : Int) (hs : 0 < trk.speed)
    (ht : 0 < t) (hst : trk.paused = true ∨ (0 < trk.start ∧ trk.start ≤ t))
    (hle : t ≤ now) :
    0 < (trk.pause p now).1.speed ∧
      ((trk.pause p now).1.paused = true ∨
        (0 < (trk.pause p now).1.start ∧ (trk.pause p now).1.start ≤ now)) := by
  cases hp : trk.paused <;> cases p
  · rw [pause_same trk false now hp]
    refine ⟨hs, ?_⟩
    rcases hst with h | h
    · rw [hp] at h; cases h
    · exact Or.inr ⟨h.1, le_trans h.2 hle⟩
  · rw [pause_true_of_playing trk now hp]; exact ⟨hs, Or.inl rfl⟩
  · rw [pause_false_of_paused trk now hp]
    exact ⟨hs, Or.inr ⟨by show 0 < now; omega, le_refl _⟩⟩
  · rw [pause_same trk true now hp]; exact ⟨hs, Or.inl hp⟩

theorem setSpeed_keeps (trk : Track) (t : Int) (f : ℚ) (now1 now2 : Int) (hf : 0 < f)
    (ht : 0 < t) (hle1 : t ≤ now1) (hle2 : now1 ≤ now2) :
    0 < (trk.setSpeed f now1 now2).speed ∧
      ((trk.setSpeed f now1 now2).paused = true ∨
        (0 < (trk.setSpeed f now1 now2).start ∧ (trk.setSpeed f now1 now2).start ≤ now2)) := by
  refine ⟨hf, ?_⟩
  cases hp : trk.paused
  · right
    simp only [Track.setSpeed, hp, Bool.not_false, if_true]
    exact ⟨by omega, le_refl _⟩
  · left
    simp [Track.setSpeed, hp]

theorem pause_step (trk : Track) (t : Int) (p : Bool) (now : Int) (hs : 0 < trk.speed)
    (hst : trk.paused = true ∨ (0 < trk.start ∧ trk.start ≤ t))
    (hle : t ≤ now) (hfit : trk.fits now) :
    (trk.getElapsedTime t).val ≤ ((trk.pause p now).1.getElapsedTime now).val := by
  have hanch : trk.paused = true ∨ trk.start ≠ 0 := by
    rcases hst with h | h
    · exact Or.inl h
    · exact Or.inr (by omega)
  rw [pause_elapsed trk p now hanch]
  exact getElapsedTime_mono trk hs.le hle (hst.imp id (fun h => h.2)) hfit

theorem setSpeed_step (trk : Track) (t : Int) (f : ℚ) (now1 now2 : Int)
    (hs : 0 < trk.speed) (hst : trk.paused = true ∨ (0 < trk.start ∧ trk.start ≤ t))
    (hle : t ≤ now1) (hfit : trk.fits now1) :
    (trk.getElapsedTime t).val ≤ ((trk.setSpeed f now1 now2).getElapsedTime now2).val := by
  have he : (trk.setSpeed f now1 now2).getElapsedTime now2 = trk.getElapsedTime now1 := by
    cases hp : trk.paused <;>
      simp [Track.setSpeed, Track.getElapsedTime, hp, since_self, scale_zero, I64.add_zero]
  rw [he]
  exact getElapsedTime_mono trk hs.le hle (hst.imp id (fun h => h.2)) hfit

theorem run_mono (ops : List Op) :
    ∀ (trk : Track) (t t2 : Int), 0 < trk.speed → 0 < t →
      (trk.paused = true ∨ (0 < trk.start ∧ trk.start ≤ t)) →
      (∀ op ∈ ops, op.speedPos) → timed t ops t2 → noOverflow trk ops t2 →
      (trk.getElapsedTime t).val ≤ ((run trk ops).getElapsedTime t2).val := by
  induction ops with
  | nil =>
    intro trk t t2 hs _ hst _ hle hfit
    exact getElapsedTime_mono trk hs.le hle (hst.imp id (fun h => h.2)) hfit
  | cons op rest ih =>
    intro trk t t2 hs ht hst hpos hle hfit
    have hrest : ∀ o ∈ rest, o.speedPos := fun o ho => hpos o (List.mem_cons_of_mem _ ho)
    cases op with
    | pause p now =>
      obtain ⟨h1, h2⟩ := hle
      obtain ⟨hf1, hf2⟩ := hfit
      obtain ⟨hk1, hk2⟩ := pause_keeps trk t p now hs ht hst h1
      have hstep := pause_step trk t p now hs hst h1 hf1
      have := ih (trk.pause p now).1 now t2 hk1 (by omega) hk2 hrest h2 hf2
      exact le_trans hstep this
    | setSpeed f now1 now2 =>
      obtain ⟨h1, h2, h3⟩ := hle
      obtain ⟨hf1, hf2⟩ := hfit
      have hf : 0 < f := hpos (Op.setSpeed f now1 now2) (List.mem_cons_self _ _)
      obtain ⟨hk1, hk2⟩ := setSpeed_keeps trk t f now1 now2 hf ht h1 h2
      have hstep := setSpeed_step trk t f now1 now2 hs hst h1 hf1
      have := ih (trk.setSpeed f now1 now2) now2 t2 hk1 (by omega) hk2 hrest h3 hf2
      exact le_trans hstep this

theorem run_keeps (ops : List Op) :
    ∀ (trk : Track) (t t2 : Int), 0 < trk.speed → 0 < t →
      (trk.paused = true ∨ (0 < trk.start ∧ trk.start ≤ t)) →
      (∀ op ∈ ops, op.speedPos) → timed t ops t2 →
      0 < (run trk ops).speed ∧ 0 < t2 ∧
        ((run trk ops).paused = true ∨
          (0 < (run trk ops).start ∧ (run trk ops).start ≤ t2)) := by
  induction ops with
  | nil =>
    intro trk t t2 hs ht hst _ hle
    have hle : t ≤ t2 := hle
    refine ⟨hs, by omega, ?_⟩
    rcases hst with h | h
    · exact Or.inl h
    · exact Or.inr ⟨h.1, le_trans h.2 hle⟩
  | cons op rest ih =>
    intro trk t t2 hs ht hst hpos hle
    have hrest : ∀ o ∈ rest, o.speedPos := fun o ho => hpos o (List.mem_cons_of_mem _ ho)
    cases op with
    | pause p now =>
      obtain ⟨h1, h2⟩ := hle
      obtain ⟨hk1, hk2⟩ := pause_keeps trk t p now hs ht hst h1
      exact ih (trk.pause p now).1 now t2 hk1 (by omega) hk2 hrest h2
    | setSpeed f now1 now2 =>
      obtain ⟨h1, h2, h3⟩ := hle
      have hf : 0 < f := hpos (Op.setSpeed f now1 now2) (List.mem_cons_self _ _)
      obtain ⟨hk1, hk2⟩ := setSpeed_keeps trk t f now1 now2 hf ht h1 h2
      exact ih (trk.setSpeed f now1 now2) now2 t2 hk1 (by omega) hk2 hrest h3

/-- C9 (amended): take a track whose anchor is set (a clock reading, later
than the zero time and no later than `t0`) and whose speed factor is positive,
and any finite sequence of `pause(true)`, `pause(false)` and `setSpeed(f)`
calls with positive `f` and non-decreasing clock readings from `t0` on.  A read
at `t1` after the calls `pre` and a read at `t2` after the further calls `ops`,
all of whose clock readings lie between `t1` and `t2`, satisfy
`elapsed(t1) ≤ elapsed(t2)`, provided that no reading overflows from `t1` on:
at each of the calls `ops` and at `t2` the `float64` product of the interval
since the anchor and the speed factor is below `2^63` and its sum with the
accumulator is at most the largest `Duration`. -/
theorem elapsed_monotone (trk : Track) (pre ops : List Op) (t0 t1 t2 : Int)
    (hanchor : 0 < trk.start) (hclock : trk.start ≤ t0) (hspeed : 0 < trk.speed)
    (hpre : ∀ op ∈ pre, op.speedPos) (hpos : ∀ op ∈ ops, op.speedPos)
    (htpre : timed t0 pre t1) (htimes : timed t1 ops t2)
    (hfit : noOverflow (run trk pre) ops t2) :
    (run trk pre).getElapsedTime t1 ≤ (run trk (pre ++ ops)).getElapsedTime t2 := by
  obtain ⟨h1, h2, h3⟩ := run_keeps pre trk t0 t1 hspeed (by omega)
    (Or.inr ⟨hanchor, hclock⟩) hpre htpre
  have h := run_mono ops (run trk pre) t1 t2 h1 h2 h3 hpos htimes hfit
  have hrun : run trk (pre ++ ops) = run (run trk pre) ops := by
    simp [run, List.foldl_append]
  rw [hrun]
  exact h

theorem fits_eval (trk : Track) (now : Int) (n : Nat) (hs : trk.speed = n) (hd : |(since now trk.start).val| < 9007199254740992)
    (hn : |(n : Int)| < 9007199254740992)
    (hz : |(since now trk.start).val * n| < 9007199254740992)
    (hsum : trk.elapsedTime.val + (since now trk.start).val * n ≤ maxDuration) :
    trk.fits now := by
  right
  have hz2 := abs_lt.mp hz
  have hsc := scale_ofNat (since now trk.start) n hd hn hz
  have hsp : speedValue (n : ℚ) = n := by
    have := speedValue_intCast n hn
    simpa using this
  constructor
  · rw [hs, f64_intCast _ hd, hsp]
    have hq : ((since now trk.start).val : ℚ) * (n : ℚ)
        = (((since now trk.start).val * n : Int) : ℚ) := by push_cast; ring
    rw [hq, f64_intCast _ hz]
    have : (since now trk.start).val * n < 9223372036854775808 := by omega
    exact_mod_cast this
  · rw [hs, hsc, I64.val_ofInt (by omega) (by omega)]
    exact hsum

theorem scale_3000_2 : scale (since 4000 1000) 2 = I64.ofInt 6000 := by
  have h := scale_ofNat (since 4000 1000) 2 (by decide) (by decide) (by decide)
  simp only [Nat.cast_ofNat] at h
  rw [h]
  decide

/-- Witness of C9: a track anchored at 1000 ns with speed 2 is read at 2000 ns,
sped up to 3 at 4000 ns and read at 6000 ns: the reads are 2000 ns and
11997 ns. -/
theorem elapsed_monotone_witness :
    timed 1200 [] 2000 ∧ timed 2000 [Op.setSpeed 3 4000 4001] 6000 ∧
      noOverflow (run ((newTrack 44100 2 2).anchor 1000) []) [Op.setSpeed 3 4000 4001] 6000 ∧
      (run ((newTrack 44100 2 2).anchor 1000) []).getElapsedTime 2000 ≤
        (run ((newTrack 44100 2 2).anchor 1000)
          ([] ++ [Op.setSpeed 3 4000 4001])).getElapsedTime 6000 ∧
      (run ((newTrack 44100 2 2).anchor 1000) []).getElapsedTime 2000 = 2000 ∧
      (run ((newTrack 44100 2 2).anchor 1000)
          ([] ++ [Op.setSpeed 3 4000 4001])).getElapsedTime 6000 = 11997 := by
  have hacc : (((newTrack 44100 2 2).anchor 1000).setSpeed 3 4000 4001).elapsedTime
      = I64.ofInt 6000 := by
    show (0 : I64) + scale (since 4000 1000) 2 = I64.ofInt 6000
    rw [scale_3000_2]
    decide
  have hfit : noOverflow (run ((newTrack 44100 2 2).anchor 1000) [])
      [Op.setSpeed 3 4000 4001] 6000 := by
    refine ⟨?_, ?_⟩
    · exact fits_eval _ 4000 2 (by simp [run, Track.anchor, newTrack]) (by decide)
        (by decide) (by decide) (by decide)
    · show (((newTrack 44100 2 2).anchor 1000).setSpeed 3 4000 4001).fits 6000
      refine fits_eval _ 6000 3 (by simp [Track.setSpeed]) (by decide) (by decide)
        (by decide) ?_
      rw [hacc]
      decide
  have h1 : (run ((newTrack 44100 2 2).anchor 1000) []).getElapsedTime 2000 = 2000 := by
    rw [elapsed_eval _ 2000 2 rfl (by simp [run, Track.anchor, newTrack]) (by decide)
      (by decide) (by decide)]
    decide
  have h2 : (run ((newTrack 44100 2 2).anchor 1000)
      ([] ++ [Op.setSpeed 3 4000 4001])).getElapsedTime 6000 = 11997 := by
    show (((newTrack 44100 2 2).anchor 1000).setSpeed 3 4000 4001).getElapsedTime 6000 = 11997
    rw [elapsed_eval _ 6000 3 rfl (by simp [Track.setSpeed]) (by decide) (by decide)
      (by decide), hacc]
    decide
  exact ⟨by simp [timed], by simp [timed], hfit,
    elapsed_monotone ((newTrack 44100 2 2).anchor 1000) [] [Op.setSpeed 3 4000 4001]
      1200 2000 6000 (by decide) (by decide) (by decide)
      (by intro op hop; cases hop)
      (by
        intro op hop
        simp only [List.mem_singleton] at hop
        rw [hop]
        show (0 : ℚ) < 3
        norm_num)
      (by simp [timed]) (by simp [timed]) hfit,
    h1, h2⟩

/-- Counterexample to C9 as stated: a track with speed 1 anchored at 1000 ns
gets `setSpeed(1e10)` at 2000 ns.  It reads 1000 ns at 2000 ns and
-9223372036854774808 ns one second later: the `float64` product `1e19` is
beyond the range of `int64` and converts to `-2^63`. -/
theorem elapsed_monotone_counterexample :
    timed 1500 [Op.setSpeed 10000000000 2000 2000] 2000 ∧ timed 2000 [] 1000002000 ∧
      ((run ((newTrack 44100 2 1).anchor 1000)
        [Op.setSpeed 10000000000 2000 2000]).getElapsedTime 2000).val = 1000 ∧
      ((run ((newTrack 44100 2 1).anchor 1000)
        ([Op.setSpeed 10000000000 2000 2000] ++ [])).getElapsedTime 1000002000).val
          = -9223372036854774808 := by
  have hacc : (((newTrack 44100 2 1).anchor 1000).setSpeed 10000000000 2000 2000).elapsedTime
      = I64.ofInt 1000 := by
    show (0 : I64) + scale (since 2000 1000) 1 = I64.ofInt 1000
    have h := scale_ofNat (since 2000 1000) 1 (by decide) (by decide) (by decide)
    simp only [Nat.cast_one] at h
    rw [h]
    decide
  refine ⟨by simp [timed], by simp [timed], ?_, ?_⟩
  · show ((((newTrack 44100 2 1).anchor 1000).setSpeed 10000000000 2000
      2000).getElapsedTime 2000).val = 1000
    rw [setSpeed_elapsed, elapsed_eval _ 2000 1 rfl (by simp [Track.anchor, newTrack])
      (by decide) (by decide) (by decide)]
    decide
  · show ((((newTrack 44100 2 1).anchor 1000).setSpeed 10000000000 2000
      2000).getElapsedTime 1000002000).val = -9223372036854774808
    have hs : (since 1000002000 2000).val = 1000000000 := by decide
    have hf : f64 ((since 1000002000 2000).val : ℚ) = 1000000000 := by
      rw [hs]
      have := f64_intCast 1000000000 (by decide)
      exact_mod_cast this
    have hsp : speedValue 10000000000 = 10000000000 := by
      have := speedValue_intCast 10000000000 (by decide)
      exact_mod_cast this
    have hp : f64 ((1000000000 : ℚ) * 10000000000) = 10000000000000000000 := by
      have h := f64_exact 19073486328125 19 (by decide) (by decide)
      norm_num at h ⊢
      exact h
    have hsc : scale (since 1000002000 2000) 10000000000 = I64.ofInt minDuration := by
      rw [scale_eval _ _ _ _ _ hf hsp hp]
      unfold toInt64
      rw [if_neg (by norm_num)]
    have hE : (((newTrack 44100 2 1).anchor 1000).setSpeed 10000000000 2000
        2000).getElapsedTime 1000002000
        = (((newTrack 44100 2 1).anchor 1000).setSpeed 10000000000 2000 2000).elapsedTime
          + scale (since 1000002000 2000) 10000000000 := rfl
    rw [hE, hacc, hsc]
    decide

/-! ## The device calls of `pause` and the pending seek -/

/-- C10: a successful `rewind` on a Paused track sets the pending-seek flag
and calls the device not at all; a `pause(p)` that changes the paused flag
returns true and, when a seek is pending, calls `Stop` on the device and
nothing else and clears the flag, and when none is pending calls `Pause(p)` on
the device and nothing else; so the resume after such a rewind calls only
`Stop`. -/
theorem pause_device_calls (trk : Track) (p : Bool) (now : Int) (offset : I64)
    (seek : I64 → Option Error) (reads : List Nat) (t1 t2 : Int) :
    (trk.paused = true →
      seek (trk.offsetInBytes (max 0 (trk.getElapsedTime t1 + offset))) = none →
      Track.drainStream reads = true →
      ∃ trk2 : Track, trk.rewind offset seek reads t1 t2 = some (trk2, none) ∧
        trk2.beRewind = true ∧ trk2.paused = true ∧ trk2.wp = trk.wp ∧
        (trk2.pause false now).2 = true ∧
        (trk2.pause false now).1.wp = trk.wp ++ [DevCall.stop] ∧
        (trk2.pause false now).1.beRewind = false) ∧
    (trk.paused ≠ p → trk.beRewind = true →
      (trk.pause p now).2 = true ∧
      (trk.pause p now).1.wp = trk.wp ++ [DevCall.stop] ∧
      (trk.pause p now).1.beRewind = false) ∧
    (trk.paused ≠ p → trk.beRewind = false →
      (trk.pause p now).2 = true ∧
      (trk.pause p now).1.wp = trk.wp ++ [DevCall.pause p] ∧
      (trk.pause p now).1.beRewind = false) := by
  refine ⟨?_, ?_, ?_⟩
  · intro hp hseek hdrain
    refine ⟨_, rewind_ok trk offset seek reads t1 t2 (Or.inl hp) hseek hdrain, ?_⟩
    simp only [hp, if_true]
    rw [pause_false_of_paused _ now rfl]
    simp [hp]
  · intro hne hb
    cases hp : trk.paused <;> cases p
    · exact absurd hp hne
    · rw [pause_true_of_playing trk now hp]; simp [hb]
    · rw [pause_false_of_paused trk now hp]; simp [hb]
    · exact absurd hp hne
  · intro hne hb
    cases hp : trk.paused <;> cases p
    · exact absurd hp hne
    · rw [pause_true_of_playing trk now hp]; simp [hb]
    · rw [pause_false_of_paused trk now hp]; simp [hb]
    · exact absurd hp hne

/-- Witness of C10: a track paused at 3 s is rewound by +2 s and resumed; the
only device call is `Stop`. -/
theorem pause_device_calls_witness :
    ∃ trk2 : Track,
      ({ (newTrack 44100 2 2) with
          paused := true, elapsedTime := 3 * second, start := 1000 } : Track).rewind
            (2 * second) (fun _ => none) [0] 5000 5000 = some (trk2, none) ∧
      trk2.beRewind = true ∧ (trk2.pause false 6000).1.wp = [DevCall.stop] := by
  obtain ⟨trk2, h1, h2, -, -, -, h6, -⟩ := (pause_device_calls
    { (newTrack 44100 2 2) with
      paused := true, elapsedTime := 3 * second, start := 1000 }
    false 6000 (2 * second) (fun _ => none) [0] 5000 5000).1 rfl rfl rfl
  exact ⟨trk2, h1, h2, h6⟩
end Player

namespace Config

/-! ## The recent-books list -/

theorem setCurrentLoop_found (id : String) (books : List Book) (b : Book) (hb : b.ID = id) :
    ∀ (visited rest post : List Book), (∀ x ∈ rest, x.ID ≠ id) →
      books = visited ++ rest ++ b :: post →
      setCurrentLoop id books visited.length (rest ++ b :: post)
        = b :: (visited ++ rest ++ post) := by
  intro visited rest
  induction rest generalizing visited with
  | nil =>
    intro post _ hbooks
    simp only [List.append_nil] at hbooks
    simp only [List.nil_append, setCurrentLoop, hb, if_true, List.append_nil]
    subst hbooks
    cases visited with
    | nil => simp [shiftRight]
    | cons v vs => simp [shiftRight]
  | cons r rest ih =>
    intro post hrest hbooks
    have hr : r.ID ≠ id := hrest r (List.mem_cons_self _ _)
    show setCurrentLoop id books visited.length (r :: (rest ++ b :: post)) = _
    rw [setCurrentLoop, if_neg hr]
    have := ih (visited ++ [r]) post (fun x hx => hrest x (List.mem_cons_of_mem _ hx))
      (by rw [hbooks]; simp)
    simp only [List.length_append, List.length_singleton] at this
    rw [this]
    simp

theorem setCurrentLoop_absent (id : String) (books : List Book) :
    ∀ (i : Nat) (rest : List Book), (∀ x ∈ rest, x.ID ≠ id) →
      setCurrentLoop id books i rest = books := by
  intro i rest
  induction rest generalizing i with
  | nil => intro _; rfl
  | cons r rest ih =>
    intro h
    have hr : r.ID ≠ id := h r (List.mem_cons_self _ _)
    simp only [setCurrentLoop, hr, if_false]
    exact ih (i + 1) (fun x hx => h x (List.mem_cons_of_mem _ hx))

theorem setCurrentBook_found (s : Service) (id : String) (b : Book) (pre post : List Book)
    (hb : b.ID = id) (hpre : ∀ x ∈ pre, x.ID ≠ id) (hs : s.RecentBooks = pre ++ b :: post) :
    s.SetCurrentBook id = { s with RecentBooks := b :: (pre ++ post) } := by
  have h := setCurrentLoop_found id s.RecentBooks b hb [] pre post hpre (by simpa using hs)
  simp only [List.length_nil, List.nil_append] at h
  unfold Service.SetCurrentBook
  rw [← hs] at h
  rw [h]

theorem updateLoop_absent (id name : String) (fragment elapsedTime : Int) :
    ∀ (k i : Nat) (s : Service),
      (∀ (j : Nat) (x : Book), i ≤ j → s.RecentBooks[j]? = some x → x.ID ≠ id) →
      updateLoop id name fragment elapsedTime k i s = s := by
  intro k
  induction k with
  | zero => intro i s _; rfl
  | succ k ih =>
    intro i s h
    rw [updateLoop]
    cases hget : s.RecentBooks[i]? with
    | none => rfl
    | some b =>
      have hb : b.ID ≠ id := h i b (le_refl _) hget
      simp only [hb, if_false]
      exact ih (i + 1) s (fun j x hj hx => h j x (by omega) hx)

theorem getElem?_middle (pre post : List Book) (b : Book) :
    (pre ++ b :: post)[pre.length]? = some b := by
  rw [List.getElem?_append_right (le_refl _)]
  simp

theorem set_middle (pre post : List Book) (b c : Book) :
    (pre ++ b :: post).set pre.length c = pre ++ c :: post := by
  induction pre with
  | nil => rfl
  | cons p pre ih => simp [ih]

theorem updateLoop_found (id name : String) (fragment elapsedTime : Int) (b : Book)
    (pre post : List Book) (hb : b.ID = id) (hpre : ∀ x ∈ pre, x.ID ≠ id)
    (hpost : ∀ x ∈ post, x.ID ≠ id) :
    ∀ (k i : Nat) (s : Service), s.RecentBooks = pre ++ b :: post →
      i ≤ pre.length → i + k = s.RecentBooks.length →
      updateLoop id name fragment elapsedTime k i s =
        { s with RecentBooks := Book.mk name id fragment elapsedTime :: (pre ++ post) } := by
  intro k
  induction k with
  | zero =>
    intro i s hs hi hlen
    rw [hs] at hlen
    simp at hlen
    omega
  | succ k ih =>
    intro i s hs hi hlen
    rw [updateLoop]
    rcases Nat.lt_or_eq_of_le hi with hlt | heq
    · have hget : s.RecentBooks[i]? = some (pre[i]) := by
        rw [hs, List.getElem?_append_left hlt]
        exact List.getElem?_eq_getElem hlt
      have hne : (pre[i]).ID ≠ id := hpre _ (List.getElem_mem _)
      simp only [hget]
      rw [if_neg hne]
      exact ih (i + 1) s hs hlt (by omega)
    · have hget : s.RecentBooks[i]? = some b := by
        rw [hs, heq]
        exact getElem?_middle pre post b
      simp only [hget]
      rw [if_pos hb]
      have hset : s.RecentBooks.set i (Book.mk name b.ID fragment elapsedTime)
          = pre ++ Book.mk name id fragment elapsedTime :: post := by
        rw [hs, heq, hb]
        exact set_middle pre post b _
      simp only [hset]
      rw [setCurrentBook_found _ id (Book.mk name id fragment elapsedTime) pre post rfl hpre rfl]
      apply updateLoop_absent
      intro j x hj hx
      simp only at hx
      have hj2 : (Book.mk name id fragment elapsedTime :: pre).length ≤ j := by
        simp only [List.length_cons]; omega
      rw [← List.cons_append, List.getElem?_append_right hj2] at hx
      exact hpost x (List.getElem?_mem hx)

theorem updateBook_found (s : Service) (id name : String) (fragment elapsedTime : Int)
    (b : Book) (pre post : List Book) (hb : b.ID = id) (hpre : ∀ x ∈ pre, x.ID ≠ id)
    (hpost : ∀ x ∈ post, x.ID ≠ id) (hs : s.RecentBooks = pre ++ b :: post) :
    s.UpdateBook id name fragment elapsedTime =
      { s with RecentBooks := Book.mk name id fragment elapsedTime :: (pre ++ post) } :=
  updateLoop_found id name fragment elapsedTime b pre post hb hpre hpost
    s.RecentBooks.length 0 s hs (Nat.zero_le _) (Nat.zero_add _)

theorem split_at_id (books : List Book) (id : String)
    (hnodup : (books.map (fun b => b.ID)).Nodup) (hmem : id ∈ books.map (fun b => b.ID)) :
    ∃ (b : Book) (pre post : List Book), books = pre ++ b :: post ∧ b.ID = id ∧
      (∀ x ∈ pre, x.ID ≠ id) ∧ (∀ x ∈ post, x.ID ≠ id) := by
  obtain ⟨b, hbmem, hb⟩ := List.mem_map.mp hmem
  obtain ⟨pre, post, hsplit⟩ := List.append_of_mem hbmem
  subst hsplit
  rw [List.map_append, List.map_cons, List.nodup_append] at hnodup
  obtain ⟨-, hcons, hdisj⟩ := hnodup
  rw [List.nodup_cons] at hcons
  refine ⟨b, pre, post, rfl, hb, ?_, ?_⟩
  · intro x hx hxid
    exact hdisj (List.mem_map_of_mem _ hx) (by
      rw [hxid, ← hb]
      exact List.mem_cons_self _ _)
  · intro x hx hxid
    apply hcons.1
    rw [hb, ← hxid]
    exact List.mem_map_of_mem _ hx

/-- C11: on a recent-books list with pairwise distinct IDs that holds a book
with ID `id`, `UpdateBook(id, name, fragment, elapsedTime)` keeps the length
and the distinctness of the IDs, puts the book with ID `id` first
(`CurrentBook` returns `id`), makes `Book(id)` return
`{name, id, fragment, elapsedTime}` with a nil error, and leaves after the
first place exactly the other books, unchanged and in their former order; the
other fields of the service stay.  When no book has ID `id`, the service is
unchanged. -/
theorem updateBook_spec (s : Service) (id name : String) (fragment elapsedTime : Int)
    (hnodup : (s.RecentBooks.map (fun b => b.ID)).Nodup) :
    (id ∈ s.RecentBooks.map (fun b => b.ID) →
      (s.UpdateBook id name fragment elapsedTime).RecentBooks.length = s.RecentBooks.length ∧
      ((s.UpdateBook id name fragment elapsedTime).RecentBooks.map (fun b => b.ID)).Nodup ∧
      (s.UpdateBook id name fragment elapsedTime).CurrentBook = id ∧
      (s.UpdateBook id name fragment elapsedTime).Book id
        = (Book.mk name id fragment elapsedTime, none) ∧
      (s.UpdateBook id name fragment elapsedTime).RecentBooks
        = Book.mk name id fragment elapsedTime ::
            s.RecentBooks.filter (fun b => decide (b.ID ≠ id)) ∧
      (s.UpdateBook id name fragment elapsedTime).Name = s.Name ∧
      (s.UpdateBook id name fragment elapsedTime).URL = s.URL ∧
      (s.UpdateBook id name fragment elapsedTime).Credentials = s.Credentials) ∧
    (id ∉ s.RecentBooks.map (fun b => b.ID) →
      s.UpdateBook id name fragment elapsedTime = s) := by
  constructor
  · intro hmem
    obtain ⟨b, pre, post, hs, hb, hpre, hpost⟩ := split_at_id s.RecentBooks id hnodup hmem
    rw [updateBook_found s id name fragment elapsedTime b pre post hb hpre hpost hs]
    have hfilter : s.RecentBooks.filter (fun b => decide (b.ID ≠ id)) = pre ++ post := by
      rw [hs, List.filter_append, List.filter_cons]
      have h1 : List.filter (fun b => decide (b.ID ≠ id)) pre = pre :=
        List.filter_eq_self.mpr (fun x hx => decide_eq_true (hpre x hx))
      have h2 : List.filter (fun b => decide (b.ID ≠ id)) post = post :=
        List.filter_eq_self.mpr (fun x hx => decide_eq_true (hpost x hx))
      rw [h1, h2]
      simp [hb]
    refine ⟨?_, ?_, rfl, ?_, ?_, rfl, rfl, rfl⟩
    · rw [hs]
      simp only [List.length_cons, List.length_append]
      omega
    · have hperm : (List.map (fun b => b.ID) (pre ++ b :: post)).Perm
          (List.map (fun b => b.ID) (Book.mk name id fragment elapsedTime :: (pre ++ post))) := by
        simp only [List.map_append, List.map_cons, hb]
        exact List.perm_middle
      rw [hs] at hnodup
      exact hperm.nodup_iff.mp hnodup
    · simp [Service.Book, bookLoop]
    · rw [hfilter]
  · intro hmem
    apply updateLoop_absent
    intro j x _ hx hxid
    exact hmem (List.mem_map.mpr ⟨x, List.getElem?_mem hx, hxid⟩)

/-- Witness of C11: three recent books, the last one updated. -/
theorem updateBook_spec_witness :
    ([Book.mk "A" "1" 0 0, Book.mk "B" "2" 3 5, Book.mk "C" "3" 1 9].map
        (fun b => b.ID)).Nodup ∧
      ((Service.mk "lib" "http://lib" (Credentials.mk "u" "p")
          [Book.mk "A" "1" 0 0, Book.mk "B" "2" 3 5, Book.mk "C" "3" 1 9]).UpdateBook
            "3" "C2" 7 42).RecentBooks
        = [Book.mk "C2" "3" 7 42, Book.mk "A" "1" 0 0, Book.mk "B" "2" 3 5] := by
  have hnd : ([Book.mk "A" "1" 0 0, Book.mk "B" "2" 3 5, Book.mk "C" "3" 1 9].map
      (fun b => b.ID)).Nodup := by decide
  refine ⟨hnd, ?_⟩
  have h := ((updateBook_spec (Service.mk "lib" "http://lib" (Credentials.mk "u" "p")
    [Book.mk "A" "1" 0 0, Book.mk "B" "2" 3 5, Book.mk "C" "3" 1 9]) "3" "C2" 7 42 hnd).1
      (by decide)).2.2.2.2.1
  rw [h]
  decide

end Config
